import Mathlib

/-!
# redux-saga-network-status: a shallow embedding

Definitions follow `src/src/actions.js`, `src/src/reducer.js` and `src/src/sagas.js`.

Modelling conventions.

* JavaScript numbers are modelled as exact rationals `ℚ`: delays are milliseconds,
  the randomization factor and the draws of `Math.random()` are fractions. The
  arithmetic of `getNextFibonacciValue` is modelled a second time with the rounding of
  IEEE 754 doubles (`roundDouble`, `getNextFibonacciValueDouble`); the statements about
  the value of that function are made on the rounded version.
* Every call of `Math.random()` is an explicit input: a function taking part in a
  computation that draws receives the draw (or an indexed family of draws).
* A generator function (a saga) is a state machine: the state is the program point at
  which the generator is suspended together with its local variables, `next` is
  `generator.next(value)` and `ret` is `generator.return()`, which is what redux-saga
  calls to cancel a task.
-/

namespace NetworkStatus

/-! ## Actions (`actions.js`) -/

/-- Modelled from the spec: the action-type constants of `actionTypes.js`, a file that is
imported by `actions.js`, `reducer.js` and `sagas.js`: eleven pairwise distinct tags,
one per event of the data model. `OTHER` stands for every type foreign to the library. -/
inductive ActionType where
  | BACKOFF
  | BACKOFF_COMPLETE
  | COUNT_DOWN
  | NAVIGATOR_OFFLINE
  | NAVIGATOR_ONLINE
  | PING
  | PING_CANCEL
  | PING_FAILURE
  | PING_PENDING
  | PING_SUCCESS
  | START_WATCH_NETWORK_STATUS
  | OTHER (name : String)
  deriving DecidableEq, Repr

/-- The value stored in `pingError`: `null` (default state), `undefined` (an action
created without payload) or an error object. -/
inductive JsError where
  | null
  | undefined
  | error (message : String)
  deriving DecidableEq, Repr

/-- An action `{ type, payload }` as built by the creators of `actions.js`
(`createAction(TYPE)` maps a payload to `{ type: TYPE, payload }`). -/
inductive Action where
  | backoff (ms : ℚ)
  | backoffComplete
  | countDown (ms : ℚ)
  | navigatorOffline
  | navigatorOnline
  | ping (pingUrl : String)
  | pingCancel
  | pingFailure (payload : JsError)
  | pingPending
  | pingSuccess
  | startWatchNetworkStatus (pingUrl : String)
  | other (name : String)
  deriving DecidableEq, Repr

/-- The `type` field of an action. -/
def Action.type : Action → ActionType
  | .backoff _ => .BACKOFF
  | .backoffComplete => .BACKOFF_COMPLETE
  | .countDown _ => .COUNT_DOWN
  | .navigatorOffline => .NAVIGATOR_OFFLINE
  | .navigatorOnline => .NAVIGATOR_ONLINE
  | .ping _ => .PING
  | .pingCancel => .PING_CANCEL
  | .pingFailure _ => .PING_FAILURE
  | .pingPending => .PING_PENDING
  | .pingSuccess => .PING_SUCCESS
  | .startWatchNetworkStatus _ => .START_WATCH_NETWORK_STATUS
  | .other name => .OTHER name

/-! ## The reducer (`reducer.js`) -/

/-- The state kept by the network reducer. -/
structure State where
  hasBeenOnline : Bool
  hasDetectedNetworkStatus : Bool
  isNavigatorOnline : Bool
  isOnline : Bool
  isPinging : Bool
  msUntilNextPing : ℚ
  pingError : JsError
  deriving DecidableEq, Repr

/-- The constant `DEFAULT_STATE` of `reducer.js`. -/
def DEFAULT_STATE : State where
  hasBeenOnline := false
  hasDetectedNetworkStatus := false
  isNavigatorOnline := false
  isOnline := false
  isPinging := false
  msUntilNextPing := 0
  pingError := .null

/-- The reducer `handleActions({...}, DEFAULT_STATE)` on a defined state: one handler
per handled action type, every other action returns the state unchanged. -/
def reducer (state : State) : Action → State
  | .backoff msUntilNextPing => { state with msUntilNextPing := msUntilNextPing }
  | .countDown intervalLength =>
      { state with msUntilNextPing := state.msUntilNextPing - intervalLength }
  | .navigatorOffline =>
      { state with hasDetectedNetworkStatus := true, isNavigatorOnline := false,
                   isOnline := false }
  | .navigatorOnline => { state with isNavigatorOnline := true }
  | .pingPending => { state with isPinging := true }
  | .pingFailure pingError =>
      { state with hasDetectedNetworkStatus := true, isOnline := false, isPinging := false,
                   pingError := pingError }
  | .pingSuccess =>
      { state with hasBeenOnline := true, hasDetectedNetworkStatus := true, isOnline := true,
                   isPinging := false }
  | _ => state

/-- The reducer as redux calls it: an `undefined` state (`none`) is replaced by
`DEFAULT_STATE` before the handler runs. -/
def networkReducer (state : Option State) (action : Action) : State :=
  reducer (state.getD DEFAULT_STATE) action

/-- The snapshot after a sequence of events, folded from the left. -/
def foldEvents (state : State) (events : List Action) : State :=
  events.foldl reducer state

/-! ## Effects yielded by the sagas (`redux-saga/effects`) -/

/-- The options of `fibonacciPoll`. -/
structure RetryPolicy where
  randomizationFactor : ℚ
  initialDelay : ℚ
  maxDelay : ℚ
  deriving DecidableEq, Repr

/-- The functions that the sagas hand to `call` and `fork`, with their arguments. -/
inductive Callee where
  | delay (ms : ℚ)
  | fetch (pingUrl : String)
  | once (eventType : String)
  | watchWindowOnline
  | watchWindowOffline
  | watchNavigatorStatus
  | watchBackoff
  | watchPing
  | handlePing (action : Action)
  | handleBackoff (action : Action)
  | fibonacciPoll (pingUrl : String) (options : RetryPolicy)
  deriving DecidableEq, Repr

/-- The pattern of a `take`: one action type, or an array of action types. -/
inductive Pattern where
  | one (type : ActionType)
  | anyOf (types : List ActionType)
  deriving DecidableEq, Repr

/-- An effect description, the value of a `yield`. A task handle is a number. -/
inductive Effect where
  | put (action : Action)
  | take (pattern : Pattern)
  | call (callee : Callee)
  | fork (callee : Callee)
  | join (task : Nat)
  | cancel (task : Nat)
  | cancelled
  | race (legs : List (String × Effect))

/-- The result `{ value, done }` of `generator.next` and `generator.return`. -/
inductive Yield where
  | value (effect : Effect)
  | done

/-! ## `getNextFibonacciValue` -/

/-- The function `getNextFibonacciValue` in exact arithmetic, no operation rounded;
`random` is the value of `Math.random()`. The rounded computation is
`getNextFibonacciValueDouble`. -/
def getNextFibonacciValue (randomizationFactor previous current : ℚ) (random : ℚ) : ℚ :=
  let next := previous + current
  next + (next * randomizationFactor * random)

/-! ## `getNextFibonacciValue` on doubles -/

/-- Rounding of a rational to the nearest integer, a tie going to the even one. -/
def roundHalfEven (x : ℚ) : ℤ :=
  if x - ⌊x⌋ < 1 / 2 then ⌊x⌋
  else if 1 / 2 < x - ⌊x⌋ then ⌊x⌋ + 1
  else if ⌊x⌋ % 2 = 0 then ⌊x⌋
  else ⌊x⌋ + 1

/-- The exponent `e` of the last place of the doubles around `x`: the doubles between
`2 ^ (e + 52)` and `2 ^ (e + 53)` in magnitude are the multiples of `2 ^ e`, and `e` does
not go below `-1074`, the exponent of the subnormal doubles. -/
def ulpExponent (x : ℚ) : ℤ :=
  max (Int.log 2 |x| - 52) (-1074)

/-- The rounding that ends every arithmetic operation on JavaScript numbers (IEEE 754
binary64, round to nearest, ties to even): the double nearest to the exact result `x`.
A finite double is modelled by the rational it denotes. `Infinity`, `NaN` and the sign
of zero are not modelled: `roundDouble x` is the result of JavaScript whenever it is below
`2 ^ 1024` in magnitude, that is, whenever JavaScript does not overflow to `Infinity`. -/
def roundDouble (x : ℚ) : ℚ :=
  roundHalfEven (x / 2 ^ ulpExponent x) * 2 ^ ulpExponent x

/-- The function `getNextFibonacciValue` as JavaScript computes it, on doubles: the sum
`previous + current`, the products `next * randomizationFactor` and `... * Math.random()`
(multiplication associates to the left) and the final sum are each rounded; `random` is
the value of `Math.random()`. -/
def getNextFibonacciValueDouble (randomizationFactor previous current : ℚ) (random : ℚ) : ℚ :=
  let next := roundDouble (previous + current)
  roundDouble (next + roundDouble (roundDouble (next * randomizationFactor) * random))

/-- Stated by the specification: the raw sum `a + b` multiplied by `1 + f * u`, the
expression `(a + b) * (1 + f * u)` evaluated on doubles, each operation rounded (the
docstring of `getNextFibonacciValue` describes the result in the same way, as the next
value multiplied by `1 + 0.5 * Math.random()` for a factor of `0.5`). -/
def multipliedSumDouble (f a b u : ℚ) : ℚ :=
  roundDouble (roundDouble (a + b) * roundDouble (1 + roundDouble (f * u)))

/-! ## `handleBackoff` -/

/-- The function `range` of `lodash/fp` (two arguments, the step is `1` when
`start < end` and `-1` otherwise): `end - start` values going up, or `start - end`
values going down. -/
def range (start stop : ℤ) : List ℤ :=
  List.map (fun i : ℕ => start + (i : ℤ) * (if start < stop then 1 else -1))
    (List.range (stop - start).natAbs)

/-- The JavaScript remainder `a % b`: the quotient is truncated towards zero, so the
result has the sign of `a`. -/
def jsMod (a b : ℚ) : ℚ :=
  a - b * (if 0 ≤ a / b then ⌊a / b⌋ else ⌈a / b⌉)

/-- The saga `handleBackoff({ payload: ms })`. The generator never reads the value a
`yield` is resumed with, so it is given as the sequence of effects it yields before it
completes. -/
def handleBackoff (ms : ℚ) : List Effect :=
  let intervalLength : ℚ := 1000
  let intervalCount : ℤ := ⌊ms / intervalLength⌋
  ((range 0 intervalCount).flatMap fun _ =>
      [Effect.put (.countDown intervalLength), Effect.call (.delay intervalLength)])
    ++ (if jsMod ms intervalLength > 0 then
          [Effect.put (.countDown (jsMod ms intervalLength)),
           Effect.call (.delay (jsMod ms intervalLength))]
        else [])
    ++ [Effect.put .backoffComplete]

/-- The payloads of the `COUNT_DOWN` actions put by a sequence of effects, in order. -/
def countDownPayloads : List Effect → List ℚ
  | [] => []
  | .put (.countDown ms) :: rest => ms :: countDownPayloads rest
  | _ :: rest => countDownPayloads rest

/-- Whether every `COUNT_DOWN` of the sequence is at most the `msUntilNextPing` of the
snapshot it is applied to, and every `BACKOFF` payload is non-negative. -/
def countDownsCovered (state : State) : List Action → Bool
  | [] => true
  | .backoff ms :: rest =>
      decide (0 ≤ ms) && countDownsCovered (reducer state (.backoff ms)) rest
  | .countDown ms :: rest =>
      decide (ms ≤ state.msUntilNextPing) && countDownsCovered (reducer state (.countDown ms)) rest
  | a :: rest => countDownsCovered (reducer state a) rest

/-! ## `fibonacciPoll` -/

/-- The result of `race({ backoffComplete: take(BACKOFF_COMPLETE), ping: take(PING) })`:
the action taken by the leg that won, under the key of that leg. -/
structure PollWinner where
  backoffComplete : Option Action
  ping : Option Action
  deriving DecidableEq, Repr

/-- The value a suspended generator is resumed with. -/
inductive Resume where
  | undefined
  | action (a : Action)
  | winner (w : PollWinner)
  | bool (b : Bool)
  | task (t : Nat)
  deriving DecidableEq, Repr

/-- The program points of `fibonacciPoll`: not started, suspended at one of the seven
`yield`s (in source order, `askCancelled` and `putPingCancel` being those of `finally`),
completed. -/
inductive PollPc where
  | start
  | putPingFirst
  | takeOutcome
  | putBackoff
  | raceWait
  | putPingAgain
  | askCancelled
  | putPingCancel
  | done
  deriving DecidableEq, Repr

/-- A `fibonacciPoll` generator object: the two arguments, the program point, the locals
`previousDelay` and `currentDelay`, and the number of `Math.random()` calls made so far. -/
structure PollState where
  pingUrl : String
  options : RetryPolicy
  pc : PollPc
  previousDelay : ℚ
  currentDelay : ℚ
  draws : Nat
  deriving DecidableEq, Repr

/-- The call `fibonacciPoll(pingUrl, options)`: a generator that has not run yet. The
two `let`s at the head of the body, which run at the first `next()` before anything is
yielded, are recorded in the state from the start. -/
def fibonacciPoll (pingUrl : String) (options : RetryPolicy) : PollState :=
  { pingUrl := pingUrl, options := options, pc := .start, previousDelay := 0,
    currentDelay := options.initialDelay, draws := 0 }

/-- The three statements that end the body of the `while` loop: compute `nextDelay`,
shift `previousDelay`, cap `currentDelay`. -/
def advanceDelay (random : ℕ → ℚ) (st : PollState) : PollState :=
  let nextDelay := getNextFibonacciValue st.options.randomizationFactor st.previousDelay
    st.currentDelay (random st.draws)
  { st with previousDelay := st.currentDelay
            currentDelay := min nextDelay st.options.maxDelay
            draws := st.draws + 1 }

/-- The pattern `[PING_SUCCESS, PING_FAILURE]` of the `take` heading the loop. -/
def outcomePattern : Pattern := .anyOf [.PING_SUCCESS, .PING_FAILURE]

/-- The effect `race({ backoffComplete: take(BACKOFF_COMPLETE), ping: take(PING) })`. -/
def backoffRace : Effect :=
  .race [("backoffComplete", .take (.one .BACKOFF_COMPLETE)), ("ping", .take (.one .PING))]

/-- The body of `fibonacciPoll` from one suspension to the following one:
`generator.next(v)`. `random i` is the value of the `i`-th call of `Math.random()`.
The result is `none` when `v` is not a value that redux-saga resumes the pending effect
with (an action for `take`, a winner object for `race`, a boolean for `cancelled`). -/
def PollState.next (random : ℕ → ℚ) (st : PollState) (v : Resume) : Option (PollState × Yield) :=
  match st.pc with
  | .start => some ({ st with pc := .putPingFirst }, .value (.put (.ping st.pingUrl)))
  | .putPingFirst => some ({ st with pc := .takeOutcome }, .value (.take outcomePattern))
  | .takeOutcome =>
      match v with
      | .action action =>
          if action.type = .PING_SUCCESS then
            some ({ st with pc := .askCancelled }, .value .cancelled)
          else
            some ({ st with pc := .putBackoff }, .value (.put (.backoff st.currentDelay)))
      | _ => none
  | .putBackoff => some ({ st with pc := .raceWait }, .value backoffRace)
  | .raceWait =>
      match v with
      | .winner winner =>
          if winner.backoffComplete.isSome then
            some ({ st with pc := .putPingAgain }, .value (.put (.ping st.pingUrl)))
          else
            some ({ advanceDelay random st with pc := .takeOutcome },
              .value (.take outcomePattern))
      | _ => none
  | .putPingAgain =>
      some ({ advanceDelay random st with pc := .takeOutcome },
        .value (.take outcomePattern))
  | .askCancelled =>
      match v with
      | .bool true => some ({ st with pc := .putPingCancel }, .value (.put .pingCancel))
      | .bool false => some ({ st with pc := .done }, .done)
      | _ => none
  | .putPingCancel => some ({ st with pc := .done }, .done)
  | .done => some (st, .done)

/-- Whether the generator is suspended at a `yield` of the `try` block. -/
def PollPc.inTry : PollPc → Bool
  | .putPingFirst | .takeOutcome | .putBackoff | .raceWait | .putPingAgain => true
  | _ => false

/-- The call `generator.return()`, by which redux-saga cancels a task: inside the `try`
block control moves to the `finally` block, which yields `cancelled()`; a generator that
has not started, or is already inside `finally`, completes. -/
def PollState.ret (st : PollState) : PollState × Yield :=
  if st.pc.inTry then ({ st with pc := .askCancelled }, .value .cancelled)
  else ({ st with pc := .done }, .done)

/-- One call made on the generator object. -/
inductive Call where
  | next (v : Resume)
  | ret
  deriving DecidableEq, Repr

/-- The result of one call on the generator object. -/
def PollState.step (random : ℕ → ℚ) (st : PollState) : Call → Option (PollState × Yield)
  | .next v => st.next random v
  | .ret => some st.ret

/-- The results of a sequence of calls on the generator object, in order, together with
the generator reached; the run ends at the first call whose argument is ill-shaped. -/
def PollState.run (random : ℕ → ℚ) : PollState → List Call → PollState × List Yield
  | st, [] => (st, [])
  | st, c :: cs =>
      match st.step random c with
      | none => (st, [])
      | some (st1, y) =>
          let r := PollState.run random st1 cs
          (r.1, y :: r.2)

/-- The payload of a result that is `put(backoff(ms))`. -/
def Yield.backoffPayload : Yield → Option ℚ
  | .value (.put (.backoff ms)) => some ms
  | _ => none

/-- The payloads of the `BACKOFF` actions put in a sequence of results, in order. -/
def backoffPayloads (ys : List Yield) : List ℚ :=
  ys.filterMap Yield.backoffPayload

/-- The calls that start a generator and bring it to its first `take`. -/
def startCalls : List Call := [.next .undefined, .next .undefined]

/-- The calls made while the generator goes through consecutive failed pings: for every
round the `take` is resumed with `PING_FAILURE`, the `put` of `BACKOFF` is resumed, the
race is resumed with the winner of that round and, when `BACKOFF_COMPLETE` won, the
`put` of the new `PING` is resumed. -/
def failureCalls : List (JsError × PollWinner) → List Call
  | [] => []
  | (err, w) :: rounds =>
      .next (.action (.pingFailure err)) :: .next .undefined :: .next (.winner w) ::
        (if w.backoffComplete.isSome then .next .undefined :: failureCalls rounds
         else failureCalls rounds)

/-- The delays of the test scenario: 500, 500, 1000, 1500, 2500, 4000, 6500, and 10000
from the eighth failure on. -/
def scenarioDelay (i : ℕ) : ℚ :=
  [500, 500, 1000, 1500, 2500, 4000, 6500].getD i 10000

/-- The delays of a poll without randomization: `count` values starting at `current`,
each next one the sum of the two before it, capped at `maxDelay`. -/
def fibDelays (maxDelay : ℚ) : ℚ → ℚ → ℕ → List ℚ
  | _, _, 0 => []
  | previous, current, count + 1 =>
      current :: fibDelays maxDelay current (min (previous + current) maxDelay) count

/-! ## `handlePing` -/

/-- The response `fetch` resolves with; `handlePing` reads its field `ok` only. -/
structure Response where
  ok : Bool
  deriving DecidableEq, Repr

/-- The result of `race({ ping: call(fetch, pingUrl), timeout: call(delay, 5000) })`, of
which `handlePing` reads the key `ping`: the response when `fetch` won, nothing when the
timeout won. -/
structure PingWinner where
  ping : Option Response
  deriving DecidableEq, Repr

/-- The value a suspended `handlePing` generator is resumed with. -/
inductive PingResume where
  | undefined
  | task (t : Nat)
  | winner (w : PingWinner)
  | bool (b : Bool)
  deriving DecidableEq, Repr

/-- The program points of `handlePing`: not started, suspended at one of its eleven
`yield`s in source order (`putFailure` is the one of the non-ok branch,
`putTimeoutFailure` the one of the timed-out branch, `catchJoin` and `catchPutFailure`
those of the `catch` block, `askCancelled` and `putCancelFailure` those of `finally`),
completed. The two `rethrow` points are the `yield`s of `finally` when it was entered by
an error thrown inside the `catch` block, which is thrown again when `finally` ends. -/
inductive PingPc where
  | start
  | putPending
  | forkDelay
  | raceWait
  | putSuccess
  | joinDelay
  | putFailure
  | putTimeoutFailure
  | catchJoin
  | catchPutFailure
  | askCancelled
  | putCancelFailure
  | askCancelledRethrow
  | putCancelFailureRethrow
  | done
  deriving DecidableEq, Repr

/-- A `handlePing` generator object: the two fields `type` and `payload` (named
`pingUrl`) that the parameter list destructures from the action, the program point and
the local `delayTask`, which is set when the `fork` is resumed. -/
structure PingState where
  type : ActionType
  pingUrl : String
  pc : PingPc
  delayTask : Option Nat
  deriving DecidableEq, Repr

/-- The call `handlePing({ type, payload: pingUrl })`: a generator that has not run. -/
def handlePing (type : ActionType) (pingUrl : String) : PingState :=
  { type := type, pingUrl := pingUrl, pc := .start, delayTask := none }

/-- The effect `race({ ping: call(fetch, pingUrl), timeout: call(delay, 5000) })`. -/
def pingRace (pingUrl : String) : Effect :=
  .race [("ping", .call (.fetch pingUrl)), ("timeout", .call (.delay 5000))]

/-- The body of `handlePing` from one suspension to the following one:
`generator.next(v)`. The action `pingFailure()` is created without payload. The result
is `none` when the call returns no `{ value, done }`: `v` is not a value that redux-saga
resumes the pending effect with (a task for `fork`, the winner object for `race`, a
boolean for `cancelled`), `delayTask` is read before the `fork` set it, or `finally`
ends by throwing the pending error again. -/
def PingState.next (st : PingState) (v : PingResume) : Option (PingState × Yield) :=
  match st.pc with
  | .start =>
      if st.type = .PING_CANCEL then some ({ st with pc := .done }, .done)
      else some ({ st with pc := .putPending }, .value (.put .pingPending))
  | .putPending => some ({ st with pc := .forkDelay }, .value (.fork (.delay 1000)))
  | .forkDelay =>
      match v with
      | .task t =>
          some ({ st with pc := .raceWait, delayTask := some t }, .value (pingRace st.pingUrl))
      | _ => none
  | .raceWait =>
      match v with
      | .winner ⟨some response⟩ =>
          if response.ok then
            some ({ st with pc := .putSuccess }, .value (.put .pingSuccess))
          else
            match st.delayTask with
            | some delayTask => some ({ st with pc := .joinDelay }, .value (.join delayTask))
            | none => none
      | .winner ⟨none⟩ =>
          some ({ st with pc := .putTimeoutFailure }, .value (.put (.pingFailure .undefined)))
      | _ => none
  | .putSuccess => some ({ st with pc := .askCancelled }, .value .cancelled)
  | .joinDelay => some ({ st with pc := .putFailure }, .value (.put (.pingFailure .undefined)))
  | .putFailure => some ({ st with pc := .askCancelled }, .value .cancelled)
  | .putTimeoutFailure => some ({ st with pc := .askCancelled }, .value .cancelled)
  | .catchJoin =>
      some ({ st with pc := .catchPutFailure }, .value (.put (.pingFailure .undefined)))
  | .catchPutFailure => some ({ st with pc := .askCancelled }, .value .cancelled)
  | .askCancelled =>
      match v with
      | .bool true =>
          some ({ st with pc := .putCancelFailure }, .value (.put (.pingFailure .undefined)))
      | .bool false => some ({ st with pc := .done }, .done)
      | _ => none
  | .putCancelFailure => some ({ st with pc := .done }, .done)
  | .askCancelledRethrow =>
      match v with
      | .bool true =>
          some ({ st with pc := .putCancelFailureRethrow },
            .value (.put (.pingFailure .undefined)))
      | .bool false => none
      | _ => none
  | .putCancelFailureRethrow => none
  | .done => some (st, .done)

/-- Whether the generator is suspended at a `yield` of the body of the `try` block. -/
def PingPc.inTryBody : PingPc → Bool
  | .raceWait | .putSuccess | .joinDelay | .putFailure | .putTimeoutFailure => true
  | _ => false

/-- Whether the generator is suspended at a `yield` of the `catch` block. -/
def PingPc.inCatch : PingPc → Bool
  | .catchJoin | .catchPutFailure => true
  | _ => false

/-- The call `generator.throw(error)`, by which redux-saga reports that the pending
effect failed: in the body of `try` control moves to the `catch` block, which yields
`join(delayTask)` (the error itself is not read); in the `catch` block control moves to
`finally`, which yields `cancelled()`, the error staying pending; anywhere else the error
leaves the generator, and the call returns no result. -/
def PingState.throw (st : PingState) : Option (PingState × Yield) :=
  if st.pc.inTryBody then
    match st.delayTask with
    | some delayTask => some ({ st with pc := .catchJoin }, .value (.join delayTask))
    | none => none
  else if st.pc.inCatch then
    some ({ st with pc := .askCancelledRethrow }, .value .cancelled)
  else none

/-- The call `generator.return()`, by which redux-saga cancels a task: in the body of
`try` and in the `catch` block control moves to `finally`, which yields `cancelled()`;
a generator suspended before the `try` statement, or inside `finally`, or not started,
completes. -/
def PingState.ret (st : PingState) : PingState × Yield :=
  if st.pc.inTryBody || st.pc.inCatch then
    ({ st with pc := .askCancelled }, .value .cancelled)
  else ({ st with pc := .done }, .done)

/-- One call made on a `handlePing` generator object. -/
inductive PingCall where
  | next (v : PingResume)
  | throw (error : JsError)
  | ret
  deriving DecidableEq, Repr

/-- The result of one call on a `handlePing` generator object. -/
def PingState.step (st : PingState) : PingCall → Option (PingState × Yield)
  | .next v => st.next v
  | .throw _ => st.throw
  | .ret => some st.ret

/-- The results of a sequence of calls on a `handlePing` generator object, in order,
together with the generator reached; the run ends at the first call without result. -/
def PingState.run : PingState → List PingCall → PingState × List Yield
  | st, [] => (st, [])
  | st, c :: cs =>
      match st.step c with
      | none => (st, [])
      | some (st1, y) =>
          let r := PingState.run st1 cs
          (r.1, y :: r.2)

/-- The action of a result that is a `put`. -/
def Yield.putAction : Yield → Option Action
  | .value (.put action) => some action
  | _ => none

/-- The actions put in a sequence of results, in order. -/
def putActions (ys : List Yield) : List Action :=
  ys.filterMap Yield.putAction

/-- How the race of `handlePing` ends: `fetch` resolves with a response before the
timeout, the timeout wins, or `fetch` fails with an error. -/
inductive RaceOutcome where
  | response (r : Response)
  | timeout
  | thrown (error : JsError)
  deriving DecidableEq, Repr

/-- The call that delivers the outcome of the race to the generator. -/
def RaceOutcome.call : RaceOutcome → PingCall
  | .response r => .next (.winner ⟨some r⟩)
  | .timeout => .next (.winner ⟨none⟩)
  | .thrown error => .throw error

/-- Whether the outcome makes `handlePing` wait for the floor timer: a response that
is not ok, and an error. -/
def RaceOutcome.joins : RaceOutcome → Bool
  | .response r => !r.ok
  | .timeout => false
  | .thrown _ => true

/-- The calls of a run of `handlePing` that is not cancelled: the `put` of
`PING_PENDING` is resumed, the `fork` is resumed with the task `delayTask`, the race
ends with `outcome`, every `join` and `put` that follows is resumed, and `cancelled()`
is answered `false`. -/
def uncancelledCalls (delayTask : Nat) (outcome : RaceOutcome) : List PingCall :=
  [.next .undefined, .next .undefined, .next (.task delayTask), outcome.call]
    ++ (if outcome.joins then [.next .undefined] else [])
    ++ [.next .undefined, .next (.bool false)]

/-! ## `watchNavigatorStatus` and the window watchers -/

/-- The argument of `watchNavigatorStatus`, of which the field `onLine` is read. -/
structure Navigator where
  onLine : Bool
  deriving DecidableEq, Repr

/-- The program points of `watchWindowOnline` and of `watchWindowOffline`: not started,
suspended at the `call` of `once`, suspended at the `put`, completed (by
`generator.return()` only: the loop has no exit). -/
inductive WindowPc where
  | start
  | callOnce
  | putNavigator
  | done
  deriving DecidableEq, Repr

/-- The call `watchWindowOnline()`: a generator that has not run. -/
def watchWindowOnline : WindowPc := .start

/-- The body of `watchWindowOnline` between two suspensions; the value a `yield` is
resumed with is never read. -/
def watchWindowOnlineNext (pc : WindowPc) (_v : Resume) : WindowPc × Yield :=
  match pc with
  | .start => (.callOnce, .value (.call (.once "online")))
  | .callOnce => (.putNavigator, .value (.put .navigatorOnline))
  | .putNavigator => (.callOnce, .value (.call (.once "online")))
  | .done => (.done, .done)

/-- The call `watchWindowOffline()`: a generator that has not run. -/
def watchWindowOffline : WindowPc := .start

/-- The body of `watchWindowOffline` between two suspensions; the value a `yield` is
resumed with is never read. -/
def watchWindowOfflineNext (pc : WindowPc) (_v : Resume) : WindowPc × Yield :=
  match pc with
  | .start => (.callOnce, .value (.call (.once "offline")))
  | .callOnce => (.putNavigator, .value (.put .navigatorOffline))
  | .putNavigator => (.callOnce, .value (.call (.once "offline")))
  | .done => (.done, .done)

/-- The results of successive `generator.next(v)` calls on a window watcher. -/
def windowRun (next : WindowPc → Resume → WindowPc × Yield) :
    WindowPc → List Resume → List Yield
  | _, [] => []
  | pc, v :: vs => (next pc v).2 :: windowRun next (next pc v).1 vs

/-- The saga `watchNavigatorStatus(navigator)`. The generator never reads the value a
`yield` is resumed with, so it is given as the sequence of effects it yields before it
completes. -/
def watchNavigatorStatus (navigator : Navigator) : List Effect :=
  (if navigator.onLine then [Effect.put .navigatorOnline]
   else [Effect.put .navigatorOffline])
    ++ [Effect.fork .watchWindowOnline, Effect.fork .watchWindowOffline]

/-! ## `watchNetworkStatus` -/

/-- The program points of `watchNetworkStatus`: not started, suspended at one of its
eight `yield`s in source order, completed (by `generator.return()` only). -/
inductive WatchPc where
  | start
  | takeStart
  | forkBackoff
  | forkPing
  | forkNavigator
  | takeOnline
  | forkPoll
  | takeOffline
  | cancelPoll
  | done
  deriving DecidableEq, Repr

/-- A `watchNetworkStatus` generator object: the program point and the locals `pingUrl`
and `pollTask`, `none` until they are assigned. -/
structure WatchState where
  pc : WatchPc
  pingUrl : Option String
  pollTask : Option Nat
  deriving DecidableEq, Repr

/-- The call `watchNetworkStatus()`: a generator that has not run. -/
def watchNetworkStatus : WatchState :=
  { pc := .start, pingUrl := none, pollTask := none }

/-- The options object that `watchNetworkStatus` passes to `fibonacciPoll`. -/
def pollOptions : RetryPolicy :=
  { randomizationFactor := 1 / 2, initialDelay := 500, maxDelay := 10000 }

/-- The body of `watchNetworkStatus` from one suspension to the following one:
`generator.next(v)`. The actions that resume the `take`s of `NAVIGATOR_ONLINE` and
`NAVIGATOR_OFFLINE` are not read. The result is `none` when `v` is not a value that
redux-saga resumes the pending effect with (the `START_WATCH_NETWORK_STATUS` action for
the first `take`, a task for the `fork` of `fibonacciPoll`), or a local is read before
it is assigned. -/
def WatchState.next (st : WatchState) (v : Resume) : Option (WatchState × Yield) :=
  match st.pc with
  | .start =>
      some ({ st with pc := .takeStart }, .value (.take (.one .START_WATCH_NETWORK_STATUS)))
  | .takeStart =>
      match v with
      | .action (.startWatchNetworkStatus pingUrl) =>
          some ({ st with pc := .forkBackoff, pingUrl := some pingUrl },
            .value (.fork .watchBackoff))
      | _ => none
  | .forkBackoff => some ({ st with pc := .forkPing }, .value (.fork .watchPing))
  | .forkPing => some ({ st with pc := .forkNavigator }, .value (.fork .watchNavigatorStatus))
  | .forkNavigator => some ({ st with pc := .takeOnline }, .value (.take (.one .NAVIGATOR_ONLINE)))
  | .takeOnline =>
      match st.pingUrl with
      | some pingUrl =>
          some ({ st with pc := .forkPoll }, .value (.fork (.fibonacciPoll pingUrl pollOptions)))
      | none => none
  | .forkPoll =>
      match v with
      | .task t =>
          some ({ st with pc := .takeOffline, pollTask := some t },
            .value (.take (.one .NAVIGATOR_OFFLINE)))
      | _ => none
  | .takeOffline =>
      match st.pollTask with
      | some pollTask => some ({ st with pc := .cancelPoll }, .value (.cancel pollTask))
      | none => none
  | .cancelPoll => some ({ st with pc := .takeOnline }, .value (.take (.one .NAVIGATOR_ONLINE)))
  | .done => some (st, .done)

/-- The results of successive `generator.next(v)` calls on a `watchNetworkStatus`
generator object, in order, together with the generator reached; the run ends at the
first call without result. -/
def WatchState.run : WatchState → List Resume → WatchState × List Yield
  | st, [] => (st, [])
  | st, v :: vs =>
      match st.next v with
      | none => (st, [])
      | some (st1, y) =>
          let r := WatchState.run st1 vs
          (r.1, y :: r.2)

/-- The values that resume `watchNetworkStatus` from its start to its first `take` of
`NAVIGATOR_ONLINE`: the first `next()`, the `START_WATCH_NETWORK_STATUS` action, and the
three tasks of the `fork`s. -/
def startupResumes (pingUrl : String) (t1 t2 t3 : Nat) : List Resume :=
  [.undefined, .action (.startWatchNetworkStatus pingUrl), .task t1, .task t2, .task t3]

/-- The values that resume `watchNetworkStatus` through online / offline cycles: for
every cycle `NAVIGATOR_ONLINE` is taken, the `fork` of `fibonacciPoll` returns the task
of that cycle, `NAVIGATOR_OFFLINE` is taken, and the `cancel` is resumed. -/
def cycleResumes : List Nat → List Resume
  | [] => []
  | pollTask :: rest =>
      .action .navigatorOnline :: .task pollTask :: .action .navigatorOffline :: .undefined ::
        cycleResumes rest

/-- The effects of one online / offline cycle of `watchNetworkStatus`. -/
def cycleEffects (pingUrl : String) (pollTask : Nat) : List Yield :=
  [.value (.fork (.fibonacciPoll pingUrl pollOptions)),
   .value (.take (.one .NAVIGATOR_OFFLINE)),
   .value (.cancel pollTask),
   .value (.take (.one .NAVIGATOR_ONLINE))]

/-- Whether a result is a completion `{ done: true }`. -/
def Yield.isDone : Yield → Bool
  | .done => true
  | .value _ => false

/-- The action types that the reducer has a handler for. -/
def handledTypes : List ActionType :=
  [.BACKOFF, .COUNT_DOWN, .NAVIGATOR_OFFLINE, .NAVIGATOR_ONLINE, .PING_PENDING,
   .PING_FAILURE, .PING_SUCCESS]

/-! ## Sequences stated by the specification -/

/-- The backoff recurrence in the words of the specification: `count` delays starting
at `current`, each step being `previousDelay' = currentDelay` and
`currentDelay' = min(getNextFibonacciValue(randomizationFactor, previousDelay,
currentDelay), maxDelay)`, the step number `draw` using the draw `random draw`. No race
winner takes part in it. -/
def pollDelays (options : RetryPolicy) (random : ℕ → ℚ) : ℚ → ℚ → ℕ → ℕ → List ℚ
  | _, _, _, 0 => []
  | previous, current, draw, count + 1 =>
      current ::
        pollDelays options random current
          (min (getNextFibonacciValue options.randomizationFactor previous current
            (random draw)) options.maxDelay)
          (draw + 1) count

/-- The events of a backoff of `ms` milliseconds seen by the reducer up to the `tick`-th
tick: `BACKOFF(ms)`, then the first `tick` of the `COUNT_DOWN` actions that
`handleBackoff({ payload: ms })` puts, in order. -/
def backoffEvents (ms : ℚ) (tick : ℕ) : List Action :=
  .backoff ms :: ((countDownPayloads (handleBackoff ms)).take tick).map Action.countDown

/-- Whether an action is one of those that `handlePing` creates: `pingPending()`,
`pingSuccess()`, and `pingFailure()` without argument, whose payload is `undefined`. -/
def Action.isPingEvent : Action → Bool
  | .pingPending => true
  | .pingSuccess => true
  | .pingFailure .undefined => true
  | _ => false

/-- Whether a result is the effect `take(START_WATCH_NETWORK_STATUS)`. -/
def Yield.isTakeStart : Yield → Bool
  | .value (.take (.one .START_WATCH_NETWORK_STATUS)) => true
  | _ => false

/-- The arguments of a result that is `fork(fibonacciPoll, pingUrl, options)`. -/
def Yield.forkedPoll : Yield → Option (String × RetryPolicy)
  | .value (.fork (.fibonacciPoll pingUrl options)) => some (pingUrl, options)
  | _ => none

/-! ## Theorems -/

/-! ### Countdown -/

theorem range_zero_length (n : ℤ) : (range 0 n).length = n.natAbs := by
  simp [range]

theorem flatMap_const_eq {α β : Type} (l : List α) (x : List β) :
    (l.flatMap fun _ => x) = (List.replicate l.length x).flatten := by
  induction l with
  | nil => rfl
  | cons a l ih => simp [List.flatMap_cons, List.replicate_succ, ih]

theorem jsMod_of_nonneg (a b : ℚ) (h : 0 ≤ a / b) : jsMod a b = a - b * ⌊a / b⌋ := by
  simp [jsMod, h]

theorem countDownPayloads_append (xs ys : List Effect) :
    countDownPayloads (xs ++ ys) = countDownPayloads xs ++ countDownPayloads ys := by
  induction xs with
  | nil => rfl
  | cons e xs ih =>
    cases e with
    | put a => cases a <;> simp [countDownPayloads, ih]
    | _ => simp [countDownPayloads, ih]

theorem countDownPayloads_ticks (n : ℕ) (k : ℚ) :
    countDownPayloads
        (List.replicate n [Effect.put (.countDown k), Effect.call (.delay k)]).flatten
      = List.replicate n k := by
  induction n with
  | zero => rfl
  | succ n ih => simp [List.replicate_succ, countDownPayloads, ih]

/-- C6: for every duration `ms ≥ 0`, `handleBackoff({ payload: ms })` yields
`floor(ms / 1000)` times `put(COUNT_DOWN(1000))`, `call(delay, 1000)`, then, only when the
remainder `ms - 1000 * floor(ms / 1000)` is positive, `put(COUNT_DOWN(remainder))`,
`call(delay, remainder)`, then `put(BACKOFF_COMPLETE)` as last effect; the tick payloads
sum to `ms`, and for `ms = 0` the sequence is `put(BACKOFF_COMPLETE)` alone. -/
theorem handleBackoff_effects (ms : ℚ) (hms : 0 ≤ ms) :
    handleBackoff ms =
        (List.replicate ⌊ms / 1000⌋.toNat
            [Effect.put (.countDown 1000), Effect.call (.delay 1000)]).flatten
          ++ (if 0 < ms - 1000 * ⌊ms / 1000⌋ then
                [Effect.put (.countDown (ms - 1000 * ⌊ms / 1000⌋)),
                 Effect.call (.delay (ms - 1000 * ⌊ms / 1000⌋))]
              else [])
          ++ [Effect.put .backoffComplete]
      ∧ (countDownPayloads (handleBackoff ms)).sum = ms
      ∧ handleBackoff 0 = [Effect.put .backoffComplete] := by
  have hq : 0 ≤ ms / 1000 := div_nonneg hms (by norm_num)
  have hfl : 0 ≤ ⌊ms / 1000⌋ := Int.floor_nonneg.mpr hq
  have hlen : (range 0 ⌊ms / 1000⌋).length = ⌊ms / 1000⌋.toNat := by
    rw [range_zero_length]
    omega
  have hshape : handleBackoff ms =
        (List.replicate ⌊ms / 1000⌋.toNat
            [Effect.put (.countDown 1000), Effect.call (.delay 1000)]).flatten
          ++ (if 0 < ms - 1000 * ⌊ms / 1000⌋ then
                [Effect.put (.countDown (ms - 1000 * ⌊ms / 1000⌋)),
                 Effect.call (.delay (ms - 1000 * ⌊ms / 1000⌋))]
              else [])
          ++ [Effect.put .backoffComplete] := by
    simp only [handleBackoff, flatMap_const_eq, hlen, jsMod_of_nonneg ms 1000 hq, gt_iff_lt]
  refine ⟨hshape, ?_, ?_⟩
  · rw [hshape, countDownPayloads_append, countDownPayloads_append, countDownPayloads_ticks]
    have hle : (⌊ms / 1000⌋ : ℚ) ≤ ms / 1000 := Int.floor_le _
    obtain ⟨n, hn⟩ := Int.eq_ofNat_of_zero_le hfl
    rw [hn] at hle ⊢
    simp only [Int.toNat_ofNat, Int.cast_natCast] at hle ⊢
    by_cases hr : 0 < ms - 1000 * (n : ℚ)
    · simp only [hr, if_true, countDownPayloads, List.sum_append, List.sum_replicate,
        List.sum_cons, List.sum_nil, smul_eq_mul, nsmul_eq_mul]
      ring
    · have heq : ms - 1000 * (n : ℚ) = 0 := by
        apply le_antisymm (not_lt.mp hr)
        linarith
      simp only [hr, if_false, countDownPayloads, List.sum_append, List.sum_replicate,
        List.sum_nil, smul_eq_mul, nsmul_eq_mul]
      linarith
  · simp [handleBackoff, range, jsMod]

/-- Witness of C6 at `ms = 2500`: two ticks of 1000, one tick of 500. -/
theorem handleBackoff_effects_witness :
    handleBackoff 2500 =
        (List.replicate ⌊(2500 : ℚ) / 1000⌋.toNat
            [Effect.put (.countDown 1000), Effect.call (.delay 1000)]).flatten
          ++ (if 0 < (2500 : ℚ) - 1000 * ⌊(2500 : ℚ) / 1000⌋ then
                [Effect.put (.countDown (2500 - 1000 * ⌊(2500 : ℚ) / 1000⌋)),
                 Effect.call (.delay (2500 - 1000 * ⌊(2500 : ℚ) / 1000⌋))]
              else [])
          ++ [Effect.put .backoffComplete]
      ∧ (countDownPayloads (handleBackoff 2500)).sum = 2500
      ∧ handleBackoff 0 = [Effect.put .backoffComplete] :=
  handleBackoff_effects 2500 (by norm_num)

/-! ### The reducer and `msUntilNextPing` -/

theorem foldEvents_cons (s : State) (a : Action) (evs : List Action) :
    foldEvents s (a :: evs) = foldEvents (reducer s a) evs := rfl

theorem foldEvents_msUntilNextPing_nonneg (evs : List Action) :
    ∀ s : State, 0 ≤ s.msUntilNextPing → countDownsCovered s evs = true →
      0 ≤ (foldEvents s evs).msUntilNextPing := by
  induction evs with
  | nil => intro s h0 _; exact h0
  | cons a evs ih =>
    intro s h0 hc
    rw [foldEvents_cons]
    cases a <;> simp only [countDownsCovered, Bool.and_eq_true, decide_eq_true_eq] at hc
    case backoff ms => exact ih _ hc.1 hc.2
    case countDown ms => exact ih _ (by simp only [reducer]; linarith [hc.1]) hc.2
    all_goals exact ih _ (by simpa [reducer] using h0) hc

/-- C7, counterexample: after `COUNT_DOWN(1000)` on the default snapshot
`msUntilNextPing` is `-1000`, which is not `≥ 0`. -/
theorem reducer_msUntilNextPing_negative :
    ¬ (0 ≤ (foldEvents DEFAULT_STATE [Action.countDown 1000]).msUntilNextPing) := by
  simp [foldEvents, reducer, DEFAULT_STATE]

/-- C7, amended: for every finite sequence of events folded through the reducer from
the default snapshot in which every `BACKOFF` payload is `≥ 0` and every `COUNT_DOWN`
payload is at most the `msUntilNextPing` of the snapshot it is applied to, the resulting
snapshot has `msUntilNextPing ≥ 0`. -/
theorem reducer_msUntilNextPing_nonneg (evs : List Action)
    (hc : countDownsCovered DEFAULT_STATE evs = true) :
    0 ≤ (foldEvents DEFAULT_STATE evs).msUntilNextPing :=
  foldEvents_msUntilNextPing_nonneg evs DEFAULT_STATE (by simp [DEFAULT_STATE]) hc

/-- Witness of the amended C7: `BACKOFF(1500)`, `COUNT_DOWN(1000)`, `PING_PENDING`,
`COUNT_DOWN(500)`. -/
theorem reducer_msUntilNextPing_nonneg_witness :
    countDownsCovered DEFAULT_STATE
        [.backoff 1500, .countDown 1000, .pingPending, .countDown 500] = true
      ∧ 0 ≤ (foldEvents DEFAULT_STATE
          [.backoff 1500, .countDown 1000, .pingPending, .countDown 500]).msUntilNextPing :=
  ⟨by norm_num [countDownsCovered, reducer, DEFAULT_STATE],
   reducer_msUntilNextPing_nonneg _ (by norm_num [countDownsCovered, reducer, DEFAULT_STATE])⟩

/-! ### `fibonacciPoll`: the delays -/

theorem fibDelays_capped (n : ℕ) : ∀ p : ℚ, 0 ≤ p →
    fibDelays 10000 p 10000 n = List.replicate n 10000 := by
  induction n with
  | zero => intro p _; rfl
  | succ n ih =>
    intro p hp
    have hmin : min (p + 10000) (10000 : ℚ) = 10000 := min_eq_right (by linarith)
    simp only [fibDelays, List.replicate_succ, hmin]
    rw [ih 10000 (by norm_num)]

theorem map_scenarioDelay_tail (n : ℕ) : ∀ s : ℕ, 7 ≤ s →
    (List.range' s n).map scenarioDelay = List.replicate n 10000 := by
  induction n with
  | zero => intro s _; rfl
  | succ n ih =>
    intro s hs
    have h : scenarioDelay s = 10000 := by
      unfold scenarioDelay
      exact List.getD_eq_default _ _ (by simpa using hs)
    simp only [List.range'_succ, List.map_cons, List.replicate_succ, h]
    rw [ih (s + 1) (by omega)]

theorem fibDelays_scenario (n : ℕ) :
    fibDelays 10000 0 500 n = (List.range n).map scenarioDelay := by
  rw [List.range_eq_range']
  rcases n with _ | _ | _ | _ | _ | _ | _ | n
  all_goals try (norm_num [fibDelays, List.range', scenarioDelay]; done)
  have h7 : (List.range' 0 (n + 7)).map scenarioDelay
      = [500, 500, 1000, 1500, 2500, 4000, 6500] ++ (List.range' 7 n).map scenarioDelay := by
    simp [List.range'_succ, scenarioDelay]
  rw [h7, map_scenarioDelay_tail n 7 le_rfl]
  have h : fibDelays 10000 0 500 (n + 7)
      = [500, 500, 1000, 1500, 2500, 4000, 6500] ++ fibDelays 10000 6500 10000 n := by
    norm_num [fibDelays]
  rw [h, fibDelays_capped n 6500 (by norm_num)]

theorem run_failureCalls (random : ℕ → ℚ) (pingUrl : String) (options : RetryPolicy)
    (hf : options.randomizationFactor = 0) (rounds : List (JsError × PollWinner)) :
    ∀ (p c : ℚ) (d : ℕ),
      backoffPayloads
          (PollState.run random ⟨pingUrl, options, .takeOutcome, p, c, d⟩
            (failureCalls rounds)).2
        = fibDelays options.maxDelay p c rounds.length := by
  induction rounds with
  | nil => intro p c d; rfl
  | cons r rounds ih =>
    intro p c d
    obtain ⟨err, w⟩ := r
    have hnext : getNextFibonacciValue options.randomizationFactor p c (random d) = p + c := by
      simp [getNextFibonacciValue, hf]
    by_cases hw : w.backoffComplete.isSome = true
    · have := ih c (min (p + c) options.maxDelay) (d + 1)
      simp [failureCalls, hw, PollState.run, PollState.step, PollState.next, Action.type,
        advanceDelay, backoffPayloads, Yield.backoffPayload, backoffRace, fibDelays, hnext]
      simpa [backoffPayloads] using this
    · have := ih c (min (p + c) options.maxDelay) (d + 1)
      simp [failureCalls, hw, PollState.run, PollState.step, PollState.next, Action.type,
        advanceDelay, backoffPayloads, Yield.backoffPayload, backoffRace, fibDelays, hnext]
      simpa [backoffPayloads] using this

/-- C1: started with the policy `{randomizationFactor: 0, initialDelay: 500,
maxDelay: 10000}`, `fibonacciPoll` puts on consecutive `PING_FAILURE`s the `BACKOFF`
payloads 500, 500, 1000, 1500, 2500, 4000, 6500, 10000 and then 10000 for ever: for
every number of failures, every winner of every race, every error carried by the
failures and every family of random draws, the payloads in order are the first values
of that sequence. -/
theorem fibonacciPoll_scenario_delays (pingUrl : String) (random : ℕ → ℚ)
    (rounds : List (JsError × PollWinner)) :
    backoffPayloads
        (PollState.run random (fibonacciPoll pingUrl ⟨0, 500, 10000⟩)
          (startCalls ++ failureCalls rounds)).2
      = (List.range rounds.length).map scenarioDelay := by
  have h := run_failureCalls random pingUrl ⟨0, 500, 10000⟩ rfl rounds 0 500 0
  rw [fibDelays_scenario] at h
  simp only [startCalls, fibonacciPoll, List.cons_append, List.nil_append, PollState.run,
    PollState.step, PollState.next]
  simpa [backoffPayloads, Yield.backoffPayload] using h

/-! ### `fibonacciPoll`: invariants of the delays -/

/-- What one call on the generator object preserves: the options, the cap on
`currentDelay`, the signs of the delays, and that `currentDelay` does not decrease when
the factor and the draws are non-negative; a `BACKOFF` it puts carries `currentDelay`. -/
theorem PollState.step_spec (random : ℕ → ℚ) (st st1 : PollState) (c : Call) (y : Yield)
    (h : st.step random c = some (st1, y)) :
    st1.options = st.options
      ∧ (st.currentDelay ≤ st.options.maxDelay → st1.currentDelay ≤ st.options.maxDelay)
      ∧ (∀ ms, y.backoffPayload = some ms → ms = st.currentDelay)
      ∧ (0 ≤ st.options.randomizationFactor → (∀ i, 0 ≤ random i) →
          0 ≤ st.previousDelay → 0 ≤ st.currentDelay →
          st.currentDelay ≤ st.options.maxDelay →
            0 ≤ st1.previousDelay ∧ st.currentDelay ≤ st1.currentDelay) := by
  have hadv : 0 ≤ st.options.randomizationFactor → (∀ i, 0 ≤ random i) →
      0 ≤ st.previousDelay → 0 ≤ st.currentDelay → st.currentDelay ≤ st.options.maxDelay →
      st.currentDelay ≤ (advanceDelay random st).currentDelay := by
    intro hf hr hp hc hm
    simp only [advanceDelay, getNextFibonacciValue]
    apply le_min _ hm
    have h1 : 0 ≤ (st.previousDelay + st.currentDelay) * st.options.randomizationFactor *
        random st.draws :=
      mul_nonneg (mul_nonneg (by linarith) hf) (hr _)
    linarith
  have hcap : (advanceDelay random st).currentDelay ≤ st.options.maxDelay := by
    simp only [advanceDelay]
    exact min_le_right _ _
  have hprev : (advanceDelay random st).previousDelay = st.currentDelay := rfl
  cases c with
  | ret =>
    simp only [PollState.step, PollState.ret, Option.some.injEq] at h
    split at h <;> simp only [Prod.mk.injEq] at h <;> obtain ⟨rfl, rfl⟩ := h <;>
      exact ⟨rfl, id, fun ms hms => by simp [Yield.backoffPayload] at hms,
        fun _ _ hp _ _ => ⟨hp, le_rfl⟩⟩
  | next v =>
    simp only [PollState.step, PollState.next] at h
    split at h
    all_goals try split at h
    all_goals try split at h
    all_goals first
      | contradiction
      | (simp only [Option.some.injEq, Prod.mk.injEq] at h
         obtain ⟨rfl, rfl⟩ := h
         refine ⟨?_, ?_, ?_, ?_⟩
         · rfl
         · first | exact id | (intro _; exact hcap)
         · intro ms hms
           first
             | (simp only [Yield.backoffPayload, Option.some.injEq] at hms; exact hms.symm)
             | (simp [Yield.backoffPayload, backoffRace, outcomePattern] at hms)
         · intro hf hr hp hc hm
           first
             | exact ⟨hp, le_rfl⟩
             | exact ⟨by rw [hprev]; exact hc, hadv hf hr hp hc hm⟩)

theorem PollState.run_cons_some (random : ℕ → ℚ) (st st1 : PollState) (c : Call)
    (cs : List Call) (y : Yield) (h : st.step random c = some (st1, y)) :
    (PollState.run random st (c :: cs)).2 = y :: (PollState.run random st1 cs).2 := by
  simp [PollState.run, h]

theorem PollState.run_cons_none (random : ℕ → ℚ) (st : PollState) (c : Call)
    (cs : List Call) (h : st.step random c = none) :
    (PollState.run random st (c :: cs)).2 = [] := by
  simp [PollState.run, h]

theorem backoffPayloads_cons (y : Yield) (ys : List Yield) :
    backoffPayloads (y :: ys) =
      (match y.backoffPayload with
        | some ms => ms :: backoffPayloads ys
        | none => backoffPayloads ys) := by
  simp only [backoffPayloads, List.filterMap_cons]
  cases y.backoffPayload <;> rfl

theorem PollState.run_capped (random : ℕ → ℚ) (calls : List Call) :
    ∀ st : PollState, st.currentDelay ≤ st.options.maxDelay →
      ∀ ms ∈ backoffPayloads (PollState.run random st calls).2, ms ≤ st.options.maxDelay := by
  induction calls with
  | nil => intro st _ ms hms; simp [PollState.run, backoffPayloads] at hms
  | cons c cs ih =>
    intro st hst ms hms
    cases hstep : st.step random c with
    | none => rw [PollState.run_cons_none random st c cs hstep] at hms; simp [backoffPayloads] at hms
    | some r =>
      obtain ⟨st1, y⟩ := r
      obtain ⟨hopt, hcap, hpay, _⟩ := PollState.step_spec random st st1 c y hstep
      rw [PollState.run_cons_some random st st1 c cs y hstep, backoffPayloads_cons] at hms
      have ih1 := ih st1 (by rw [hopt]; exact hcap hst)
      rw [hopt] at ih1
      cases hy : y.backoffPayload with
      | none => rw [hy] at hms; exact ih1 ms hms
      | some m =>
        rw [hy] at hms
        rcases List.mem_cons.mp hms with h | h
        · rw [h, hpay m hy]; exact hst
        · exact ih1 ms h

theorem PollState.run_sorted (random : ℕ → ℚ) (hr : ∀ i, 0 ≤ random i) (calls : List Call) :
    ∀ st : PollState, 0 ≤ st.options.randomizationFactor → 0 ≤ st.previousDelay →
      0 ≤ st.currentDelay → st.currentDelay ≤ st.options.maxDelay →
      (backoffPayloads (PollState.run random st calls).2).Pairwise (· ≤ ·)
        ∧ ∀ ms ∈ backoffPayloads (PollState.run random st calls).2, st.currentDelay ≤ ms := by
  induction calls with
  | nil => intro st _ _ _ _; simp [PollState.run, backoffPayloads]
  | cons c cs ih =>
    intro st hf hp hc hm
    cases hstep : st.step random c with
    | none => rw [PollState.run_cons_none random st c cs hstep]; simp [backoffPayloads]
    | some r =>
      obtain ⟨st1, y⟩ := r
      obtain ⟨hopt, hcap, hpay, hmono⟩ := PollState.step_spec random st st1 c y hstep
      obtain ⟨hp1, hc1⟩ := hmono hf hr hp hc hm
      rw [PollState.run_cons_some random st st1 c cs y hstep, backoffPayloads_cons]
      obtain ⟨ihs, ihb⟩ := ih st1 (by rw [hopt]; exact hf) hp1 (le_trans hc hc1)
        (by rw [hopt]; exact hcap hm)
      have hb : ∀ ms ∈ backoffPayloads (PollState.run random st1 cs).2, st.currentDelay ≤ ms :=
        fun ms hms => le_trans hc1 (ihb ms hms)
      cases hy : y.backoffPayload with
      | none => exact ⟨ihs, hb⟩
      | some m =>
        have hm0 := hpay m hy
        subst hm0
        refine ⟨List.pairwise_cons.mpr ⟨hb, ihs⟩, ?_⟩
        intro ms hms
        rcases List.mem_cons.mp hms with h | h
        · rw [h]
        · exact hb ms h

/-- C2: for every policy with `maxDelay ≥ initialDelay` (whatever the randomization
factor), every family of random draws and every sequence of calls on the generator
(every sequence of outcomes, race winners and cancellations), every `BACKOFF` payload
that `fibonacciPoll` puts is at most `maxDelay`. -/
theorem fibonacciPoll_backoff_le_maxDelay (pingUrl : String) (options : RetryPolicy)
    (random : ℕ → ℚ) (calls : List Call) (hmax : options.initialDelay ≤ options.maxDelay) :
    ∀ ms ∈ backoffPayloads (PollState.run random (fibonacciPoll pingUrl options) calls).2,
      ms ≤ options.maxDelay :=
  PollState.run_capped random calls (fibonacciPoll pingUrl options) hmax

/-- Witness of C2: the policy of `watchNetworkStatus`, draws all `9/10`, two failed
pings with `BACKOFF_COMPLETE` winning both races: the second `BACKOFF` carries 725. -/
theorem fibonacciPoll_backoff_le_maxDelay_witness :
    (500 : ℚ) ≤ 10000
      ∧ (725 : ℚ) ∈ backoffPayloads
          (PollState.run (fun _ => 9/10)
            (fibonacciPoll "http://example.com/ping" ⟨1/2, 500, 10000⟩)
            (startCalls ++ failureCalls
              [(.undefined, ⟨some .backoffComplete, none⟩),
               (.undefined, ⟨some .backoffComplete, none⟩)])).2
      ∧ (725 : ℚ) ≤ 10000 :=
  have hmem : (725 : ℚ) ∈ backoffPayloads
      (PollState.run (fun _ => 9/10)
        (fibonacciPoll "http://example.com/ping" ⟨1/2, 500, 10000⟩)
        (startCalls ++ failureCalls
          [(.undefined, ⟨some .backoffComplete, none⟩),
           (.undefined, ⟨some .backoffComplete, none⟩)])).2 := by
    simp [startCalls, failureCalls, fibonacciPoll, PollState.run, PollState.step,
      PollState.next, Action.type, advanceDelay, getNextFibonacciValue, backoffPayloads,
      Yield.backoffPayload, backoffRace, outcomePattern]
    norm_num
  ⟨by norm_num, hmem,
    fibonacciPoll_backoff_le_maxDelay "http://example.com/ping" ⟨1/2, 500, 10000⟩
      (fun _ => 9/10) _ (by norm_num) 725 hmem⟩

/-- C3: for every policy with `randomizationFactor ≥ 0`, `initialDelay > 0` and
`maxDelay ≥ initialDelay`, every family of random draws that are `≥ 0` and every
sequence of calls on the generator, the `BACKOFF` payloads that one `fibonacciPoll`
instance puts are, in emission order, non-decreasing. -/
theorem fibonacciPoll_backoff_monotone (pingUrl : String) (options : RetryPolicy)
    (random : ℕ → ℚ) (calls : List Call)
    (hf : 0 ≤ options.randomizationFactor) (hinit : 0 < options.initialDelay)
    (hmax : options.initialDelay ≤ options.maxDelay) (hr : ∀ i, 0 ≤ random i) :
    (backoffPayloads (PollState.run random (fibonacciPoll pingUrl options) calls).2).Pairwise
      (· ≤ ·) :=
  (PollState.run_sorted random hr calls (fibonacciPoll pingUrl options) hf le_rfl hinit.le
    hmax).1

/-- Witness of C3: the policy of `watchNetworkStatus`, draws all `9/10`, three failed
pings, the second race won by a manual `PING`. -/
theorem fibonacciPoll_backoff_monotone_witness :
    (backoffPayloads
        (PollState.run (fun _ => 9/10) (fibonacciPoll "http://example.com/ping" ⟨1/2, 500, 10000⟩)
          (startCalls ++ failureCalls
            [(.undefined, ⟨some .backoffComplete, none⟩),
             (.undefined, ⟨none, some (.ping "http://example.com/ping")⟩),
             (.undefined, ⟨some .backoffComplete, none⟩)])).2).Pairwise (· ≤ ·) :=
  fibonacciPoll_backoff_monotone "http://example.com/ping" ⟨1/2, 500, 10000⟩ (fun _ => 9/10) _
    (by norm_num) (by norm_num) (by norm_num) (fun _ => by norm_num)

/-! ### `fibonacciPoll`: the control flow -/

/-- C8: after a `PING_FAILURE`, resuming the `take` makes `fibonacciPoll` put
`BACKOFF(currentDelay)` and then race `take(BACKOFF_COMPLETE)` against `take(PING)`; if
`BACKOFF_COMPLETE` won it puts one `PING(pingUrl)` and then takes the next outcome, if a
manual `PING` won it takes the next outcome at once, with no `PING` of its own. In both
cases the generator has not completed: it is suspended at the `take` of
`[PING_SUCCESS, PING_FAILURE]` again. -/
theorem fibonacciPoll_failure_round (random : ℕ → ℚ) (pingUrl : String)
    (options : RetryPolicy) (p c : ℚ) (d : ℕ) (err : JsError) (done manual : Action)
    (other : Option Action) :
    (PollState.run random ⟨pingUrl, options, .takeOutcome, p, c, d⟩
        [.next (.action (.pingFailure err)), .next .undefined,
         .next (.winner ⟨some done, other⟩), .next .undefined]).2
        = [.value (.put (.backoff c)),
           .value (.race [("backoffComplete", .take (.one .BACKOFF_COMPLETE)),
                          ("ping", .take (.one .PING))]),
           .value (.put (.ping pingUrl)),
           .value (.take (.anyOf [.PING_SUCCESS, .PING_FAILURE]))]
      ∧ (PollState.run random ⟨pingUrl, options, .takeOutcome, p, c, d⟩
          [.next (.action (.pingFailure err)), .next .undefined,
           .next (.winner ⟨some done, other⟩), .next .undefined]).1.pc = .takeOutcome
      ∧ (PollState.run random ⟨pingUrl, options, .takeOutcome, p, c, d⟩
          [.next (.action (.pingFailure err)), .next .undefined,
           .next (.winner ⟨none, some manual⟩)]).2
        = [.value (.put (.backoff c)),
           .value (.race [("backoffComplete", .take (.one .BACKOFF_COMPLETE)),
                          ("ping", .take (.one .PING))]),
           .value (.take (.anyOf [.PING_SUCCESS, .PING_FAILURE]))]
      ∧ (PollState.run random ⟨pingUrl, options, .takeOutcome, p, c, d⟩
          [.next (.action (.pingFailure err)), .next .undefined,
           .next (.winner ⟨none, some manual⟩)]).1.pc = .takeOutcome := by
  simp [PollState.run, PollState.step, PollState.next, Action.type, backoffRace,
    outcomePattern]

/-- C9: for every URL and policy the first effect of `fibonacciPoll` is
`put(PING(pingUrl))` and the second the `take` of `[PING_SUCCESS, PING_FAILURE]`; if
that `take` is resumed with `PING_SUCCESS` the generator enters `finally`, asks
`cancelled()`, and, answered `false` (the task was not cancelled), completes: it yields
no `put` at all, and every later call finds it completed. The same holds when
`PING_SUCCESS` is taken after any number of failures, whatever the delays are then. -/
theorem fibonacciPoll_success_completes (random : ℕ → ℚ) (pingUrl : String)
    (options : RetryPolicy) (p c : ℚ) (d : ℕ) (later : List Call) :
    (PollState.run random (fibonacciPoll pingUrl options)
        ([.next .undefined, .next .undefined, .next (.action .pingSuccess),
          .next (.bool false)] ++ later)).2
        = [.value (.put (.ping pingUrl)),
           .value (.take (.anyOf [.PING_SUCCESS, .PING_FAILURE])),
           .value .cancelled, .done] ++ List.replicate later.length .done
      ∧ (PollState.run random ⟨pingUrl, options, .takeOutcome, p, c, d⟩
          ([.next (.action .pingSuccess), .next (.bool false)] ++ later)).2
        = [.value .cancelled, .done] ++ List.replicate later.length .done := by
  have hdone : ∀ (calls : List Call) (st : PollState), st.pc = .done →
      (PollState.run random st calls).2 = List.replicate calls.length .done := by
    intro calls
    induction calls with
    | nil => intro st _; rfl
    | cons c cs ih =>
      intro st hst
      cases c with
      | next v =>
        simp only [PollState.run, PollState.step, PollState.next, hst, List.length_cons,
          List.replicate_succ]
        rw [ih st hst]
      | ret =>
        simp only [PollState.run, PollState.step, PollState.ret, PollPc.inTry, hst,
          List.length_cons, List.replicate_succ]
        rw [ih _ rfl]
        simp
  constructor
  · simp only [List.cons_append, List.nil_append]
    simp only [fibonacciPoll, PollState.run, PollState.step, PollState.next, Action.type,
      outcomePattern, if_true]
    rw [hdone later _ rfl]
  · simp only [List.cons_append, List.nil_append]
    simp only [PollState.run, PollState.step, PollState.next, Action.type, if_true]
    rw [hdone later _ rfl]

/-- C10: when `fibonacciPoll` is cancelled (`generator.return()`) while suspended at any
`yield` of its `try` block, in particular the `take` of the ping outcome and the
backoff / manual-ping race, it asks `cancelled()`, and, answered `true`, puts exactly
one `PING_CANCEL` as its last effect and completes; when it ends on `PING_SUCCESS`
(`cancelled()` answered `false`) it completes without putting `PING_CANCEL`. -/
theorem fibonacciPoll_cancel_cleanup (random : ℕ → ℚ) (st : PollState)
    (hpc : st.pc.inTry = true) :
    (PollState.run random st [.ret, .next (.bool true), .next .undefined]).2
        = [.value .cancelled, .value (.put .pingCancel), .done]
      ∧ (PollState.run random { st with pc := .takeOutcome }
          [.next (.action .pingSuccess), .next (.bool false)]).2
        = [.value .cancelled, .done] := by
  simp [PollState.run, PollState.step, PollState.next, PollState.ret, hpc, Action.type]

/-- Witness of C10: a poll cancelled during the backoff / manual-ping race. -/
theorem fibonacciPoll_cancel_cleanup_witness :
    (PollState.run (fun _ => 0)
        ⟨"http://example.com/ping", ⟨1/2, 500, 10000⟩, .raceWait, 0, 500, 0⟩
        [.ret, .next (.bool true), .next .undefined]).2
        = [.value .cancelled, .value (.put .pingCancel), .done]
      ∧ (PollState.run (fun _ => 0)
          { (⟨"http://example.com/ping", ⟨1/2, 500, 10000⟩, .raceWait, 0, 500, 0⟩ : PollState)
            with pc := .takeOutcome }
          [.next (.action .pingSuccess), .next (.bool false)]).2
        = [.value .cancelled, .done] :=
  fibonacciPoll_cancel_cleanup (fun _ => 0)
    ⟨"http://example.com/ping", ⟨1/2, 500, 10000⟩, .raceWait, 0, 500, 0⟩ (by decide)

/-! ### `handlePing` -/

/-- C11: for every `PING` action and every end of the race of `fetch` against the
timeout (an ok response, a response that is not ok, the timeout, an error thrown), a run
of `handlePing` that is not cancelled puts `PING_PENDING` first and then exactly one
outcome, `PING_SUCCESS` for an ok response and `PING_FAILURE` otherwise, and nothing
else; every call of the run returns a result and the last one completes the
generator. -/
theorem handlePing_pending_then_one_outcome (pingUrl : String) (delayTask : Nat)
    (outcome : RaceOutcome) :
    putActions (PingState.run (handlePing .PING pingUrl) (uncancelledCalls delayTask outcome)).2
        = [.pingPending,
           match outcome with
           | .response ⟨true⟩ => .pingSuccess
           | _ => .pingFailure .undefined]
      ∧ (PingState.run (handlePing .PING pingUrl) (uncancelledCalls delayTask outcome)).2.length
        = (uncancelledCalls delayTask outcome).length
      ∧ ((PingState.run (handlePing .PING pingUrl)
          (uncancelledCalls delayTask outcome)).2.getLast?).map Yield.isDone = some true
      ∧ (PingState.run (handlePing .PING pingUrl) (uncancelledCalls delayTask outcome)).1.pc
        = .done := by
  rcases outcome with ⟨⟨_ | _⟩⟩ | _ | error <;>
    simp [uncancelledCalls, RaceOutcome.call, RaceOutcome.joins, handlePing, PingState.run,
      PingState.step, PingState.next, PingState.throw, PingPc.inTryBody, putActions,
      Yield.putAction, Yield.isDone, pingRace]

/-- C12: when `fetch` resolves with a response that is not ok, and when it throws an
error, `handlePing` yields after the race `join(delayTask)`, the task of the 1000 ms
timer, then `put(PING_FAILURE)`, then `cancelled()` and, answered `false`, completes:
the two runs yield the same sequence of effects. -/
theorem handlePing_failure_joins_delayTask (pingUrl : String) (delayTask : Nat)
    (error : JsError) :
    (PingState.run (handlePing .PING pingUrl)
        (uncancelledCalls delayTask (.response ⟨false⟩))).2
        = [.value (.put .pingPending), .value (.fork (.delay 1000)),
           .value (.race [("ping", .call (.fetch pingUrl)), ("timeout", .call (.delay 5000))]),
           .value (.join delayTask), .value (.put (.pingFailure .undefined)),
           .value .cancelled, .done]
      ∧ (PingState.run (handlePing .PING pingUrl)
          (uncancelledCalls delayTask (.thrown error))).2
        = (PingState.run (handlePing .PING pingUrl)
            (uncancelledCalls delayTask (.response ⟨false⟩))).2 := by
  simp [uncancelledCalls, RaceOutcome.call, RaceOutcome.joins, handlePing, PingState.run,
    PingState.step, PingState.next, PingState.throw, PingPc.inTryBody, pingRace]

/-- C13, counterexample: when the timeout wins the race no result of the run is
`join(delayTask)`, and the sequence of results differs from the one of the run in
which `fetch` throws. -/
theorem handlePing_timeout_no_join :
    ¬ (Yield.value (.join 7) ∈
        (PingState.run (handlePing .PING "http://example.com/ping")
          (uncancelledCalls 7 .timeout)).2)
      ∧ ¬ ((PingState.run (handlePing .PING "http://example.com/ping")
            (uncancelledCalls 7 .timeout)).2
          = (PingState.run (handlePing .PING "http://example.com/ping")
              (uncancelledCalls 7 (.thrown .undefined))).2) := by
  simp [uncancelledCalls, RaceOutcome.call, RaceOutcome.joins, handlePing, PingState.run,
    PingState.step, PingState.next, PingState.throw, PingPc.inTryBody, pingRace]

/-- C13, amended: when the timeout wins the race (the race returns no ping response),
the effect `handlePing` yields next is `put(PING_FAILURE)`, with no `join` of the task
of the 1000 ms timer; then it yields `cancelled()` and, answered `false`, completes. -/
theorem handlePing_timeout_fails_at_once (pingUrl : String) (delayTask : Nat) :
    (PingState.run (handlePing .PING pingUrl) (uncancelledCalls delayTask .timeout)).2
      = [.value (.put .pingPending), .value (.fork (.delay 1000)),
         .value (.race [("ping", .call (.fetch pingUrl)), ("timeout", .call (.delay 5000))]),
         .value (.put (.pingFailure .undefined)), .value .cancelled, .done] := by
  simp [uncancelledCalls, RaceOutcome.call, RaceOutcome.joins, handlePing, PingState.run,
    PingState.step, PingState.next, pingRace]

/-- C14, counterexample: the race returns a response with `ok = true`, `handlePing`
yields `put(PING_SUCCESS)` and is cancelled (`generator.return()`) while suspended at
that `yield`, which stands inside `try`: the `finally` block yields `cancelled()` and,
answered `true`, puts `PING_FAILURE`. The run emits `PING_FAILURE` after `PING_SUCCESS`. -/
theorem handlePing_success_then_cancelled :
    (PingState.run (handlePing .PING "http://example.com/ping")
        [.next .undefined, .next .undefined, .next (.task 7),
         .next (.winner ⟨some ⟨true⟩⟩), .ret, .next (.bool true), .next .undefined]).2
        = [.value (.put .pingPending), .value (.fork (.delay 1000)),
           .value (.race [("ping", .call (.fetch "http://example.com/ping")),
             ("timeout", .call (.delay 5000))]),
           .value (.put .pingSuccess), .value .cancelled,
           .value (.put (.pingFailure .undefined)), .done]
      ∧ putActions (PingState.run (handlePing .PING "http://example.com/ping")
          [.next .undefined, .next .undefined, .next (.task 7),
           .next (.winner ⟨some ⟨true⟩⟩), .ret, .next (.bool true), .next .undefined]).2
        = [.pingPending, .pingSuccess, .pingFailure .undefined] := by
  simp [handlePing, PingState.run, PingState.step, PingState.next, PingState.ret,
    PingPc.inTryBody, PingPc.inCatch, pingRace, putActions, Yield.putAction]

/-- C14, amended: when the race returns a response with `ok = true`, the effect
`handlePing` yields next is `put(PING_SUCCESS)`, with no `join` before it; a run that is
not cancelled then yields `cancelled()`, is answered `false` and completes, and the
actions it puts are `PING_PENDING` and `PING_SUCCESS` only, so no `PING_FAILURE`. -/
theorem handlePing_success_at_once (pingUrl : String) (delayTask : Nat) :
    (PingState.run (handlePing .PING pingUrl)
        (uncancelledCalls delayTask (.response ⟨true⟩))).2
        = [.value (.put .pingPending), .value (.fork (.delay 1000)),
           .value (.race [("ping", .call (.fetch pingUrl)), ("timeout", .call (.delay 5000))]),
           .value (.put .pingSuccess), .value .cancelled, .done]
      ∧ putActions (PingState.run (handlePing .PING pingUrl)
          (uncancelledCalls delayTask (.response ⟨true⟩))).2
        = [.pingPending, .pingSuccess] := by
  simp [uncancelledCalls, RaceOutcome.call, RaceOutcome.joins, handlePing, PingState.run,
    PingState.step, PingState.next, pingRace, putActions, Yield.putAction]

/-- C15: the code at the failing input. Cancelled (`generator.return()`) while suspended
at `fork(delay, 1000)`, after `PING_PENDING` was put and before the `try` statement,
`handlePing` completes at once without running `finally`: the only action of the run is
`PING_PENDING`, no `PING_FAILURE` is put. -/
theorem handlePing_cancel_before_try :
    (PingState.run (handlePing .PING "http://example.com/ping")
        [.next .undefined, .next .undefined, .ret]).2
        = [.value (.put .pingPending), .value (.fork (.delay 1000)), .done]
      ∧ putActions (PingState.run (handlePing .PING "http://example.com/ping")
          [.next .undefined, .next .undefined, .ret]).2 = [.pingPending] := by
  simp [handlePing, PingState.run, PingState.step, PingState.next, PingState.ret,
    PingPc.inTryBody, PingPc.inCatch, putActions, Yield.putAction]

/-- The cleanup of `handlePing` where it does run: cancelled (`generator.return()`) while
suspended at a `yield` of its `try` / `catch` statement (the race, the `join`s, the
`put`s of the outcome), the generator yields `cancelled()` and, answered `true`, puts
`PING_FAILURE` as its last effect and completes. -/
theorem handlePing_cancel_cleanup (st : PingState)
    (hpc : (st.pc.inTryBody || st.pc.inCatch) = true) :
    (PingState.run st [.ret, .next (.bool true), .next .undefined]).2
      = [.value .cancelled, .value (.put (.pingFailure .undefined)), .done] := by
  simp [PingState.run, PingState.step, PingState.next, PingState.ret, hpc]

/-- The cleanup of `handlePing` for a probe cancelled during the race. -/
theorem handlePing_cancel_cleanup_witness :
    (PingPc.inTryBody .raceWait || PingPc.inCatch .raceWait) = true
      ∧ (PingState.run ⟨.PING, "http://example.com/ping", .raceWait, some 7⟩
          [.ret, .next (.bool true), .next .undefined]).2
        = [.value .cancelled, .value (.put (.pingFailure .undefined)), .done] :=
  ⟨by decide,
   handlePing_cancel_cleanup ⟨.PING, "http://example.com/ping", .raceWait, some 7⟩ (by decide)⟩

/-! ### `watchNetworkStatus` -/

theorem WatchState.run_cycleResumes (pingUrl : String) (pollTasks : List Nat) :
    ∀ previous : Option Nat,
      (WatchState.run ⟨.takeOnline, some pingUrl, previous⟩ (cycleResumes pollTasks)).2
        = pollTasks.flatMap (cycleEffects pingUrl) := by
  induction pollTasks with
  | nil => intro previous; rfl
  | cons t rest ih =>
    intro previous
    simp only [cycleResumes, WatchState.run, WatchState.next, List.flatMap_cons, cycleEffects,
      List.cons_append, List.nil_append]
    rw [ih (some t)]

theorem WatchState.next_not_done (st st1 : WatchState) (v : Resume) (y : Yield)
    (hpc : st.pc ≠ .done) (h : st.next v = some (st1, y)) :
    st1.pc ≠ .done ∧ y.isDone = false := by
  simp only [WatchState.next] at h
  split at h
  all_goals try split at h
  all_goals first
    | contradiction
    | (simp only [Option.some.injEq, Prod.mk.injEq] at h
       obtain ⟨rfl, rfl⟩ := h
       simp [Yield.isDone])

theorem WatchState.run_not_done (vs : List Resume) :
    ∀ st : WatchState, st.pc ≠ .done →
      ∀ y ∈ (WatchState.run st vs).2, y.isDone = false := by
  induction vs with
  | nil => intro st _ y hy; simp [WatchState.run] at hy
  | cons v vs ih =>
    intro st hst y hy
    cases hnext : st.next v with
    | none => simp [WatchState.run, hnext] at hy
    | some r =>
      obtain ⟨st1, y1⟩ := r
      obtain ⟨hpc1, hy1⟩ := WatchState.next_not_done st st1 v y1 hst hnext
      simp only [WatchState.run, hnext, List.mem_cons] at hy
      rcases hy with rfl | hy
      · exact hy1
      · exact ih st1 hpc1 y hy

/-- C16: in every run of `watchNetworkStatus`, after the start-up effects the results
are, cycle after cycle, `fork(fibonacciPoll, pingUrl, options)` right after
`NAVIGATOR_ONLINE` was taken, `take(NAVIGATOR_OFFLINE)`, `cancel` of exactly the task
that this `fork` returned, and `take(NAVIGATOR_ONLINE)` again: forks and cancels
alternate strictly, so at most one instance started by the supervisor is active, and no
instance is forked before `NAVIGATOR_ONLINE` is taken again. Whatever values the
generator is resumed with, no call of `next` completes it. -/
theorem watchNetworkStatus_one_poll_at_a_time (pingUrl : String) (t1 t2 t3 : Nat)
    (pollTasks : List Nat) (vs : List Resume) :
    (WatchState.run watchNetworkStatus
        (startupResumes pingUrl t1 t2 t3 ++ cycleResumes pollTasks)).2
        = [.value (.take (.one .START_WATCH_NETWORK_STATUS)),
           .value (.fork .watchBackoff), .value (.fork .watchPing),
           .value (.fork .watchNavigatorStatus),
           .value (.take (.one .NAVIGATOR_ONLINE))]
          ++ pollTasks.flatMap (fun pollTask =>
              [.value (.fork (.fibonacciPoll pingUrl ⟨1 / 2, 500, 10000⟩)),
               .value (.take (.one .NAVIGATOR_OFFLINE)),
               .value (.cancel pollTask),
               .value (.take (.one .NAVIGATOR_ONLINE))])
      ∧ ∀ y ∈ (WatchState.run watchNetworkStatus vs).2, y.isDone = false := by
  constructor
  · have h := WatchState.run_cycleResumes pingUrl pollTasks none
    simp only [startupResumes, List.cons_append, List.nil_append]
    simp only [watchNetworkStatus, WatchState.run, WatchState.next]
    rw [h]
    rfl
  · exact WatchState.run_not_done vs watchNetworkStatus (by simp [watchNetworkStatus])

/-! ### `watchNavigatorStatus` -/

theorem windowRun_online (vs : List Resume) :
    ∀ (pc : WindowPc) (s : ℕ),
      ((pc = .start ∨ pc = .putNavigator) ∧ s % 2 = 0) ∨ (pc = .callOnce ∧ s % 2 = 1) →
      windowRun watchWindowOnlineNext pc vs
        = (List.range' s vs.length).map fun i =>
            if i % 2 = 0 then Yield.value (.call (.once "online"))
            else Yield.value (.put .navigatorOnline) := by
  induction vs with
  | nil => intro pc s _; rfl
  | cons v vs ih =>
    intro pc s h
    rcases h with ⟨rfl | rfl, hs⟩ | ⟨rfl, hs⟩
    · simp only [windowRun, watchWindowOnlineNext, List.length_cons, List.range'_succ,
        List.map_cons, hs, if_true]
      rw [ih .callOnce (s + 1) (Or.inr ⟨rfl, by omega⟩)]
    · simp only [windowRun, watchWindowOnlineNext, List.length_cons, List.range'_succ,
        List.map_cons, hs, if_true]
      rw [ih .callOnce (s + 1) (Or.inr ⟨rfl, by omega⟩)]
    · simp only [windowRun, watchWindowOnlineNext, List.length_cons, List.range'_succ,
        List.map_cons, hs]
      rw [ih .putNavigator (s + 1) (Or.inl ⟨Or.inr rfl, by omega⟩)]
      simp

theorem windowRun_offline (vs : List Resume) :
    ∀ (pc : WindowPc) (s : ℕ),
      ((pc = .start ∨ pc = .putNavigator) ∧ s % 2 = 0) ∨ (pc = .callOnce ∧ s % 2 = 1) →
      windowRun watchWindowOfflineNext pc vs
        = (List.range' s vs.length).map fun i =>
            if i % 2 = 0 then Yield.value (.call (.once "offline"))
            else Yield.value (.put .navigatorOffline) := by
  induction vs with
  | nil => intro pc s _; rfl
  | cons v vs ih =>
    intro pc s h
    rcases h with ⟨rfl | rfl, hs⟩ | ⟨rfl, hs⟩
    · simp only [windowRun, watchWindowOfflineNext, List.length_cons, List.range'_succ,
        List.map_cons, hs, if_true]
      rw [ih .callOnce (s + 1) (Or.inr ⟨rfl, by omega⟩)]
    · simp only [windowRun, watchWindowOfflineNext, List.length_cons, List.range'_succ,
        List.map_cons, hs, if_true]
      rw [ih .callOnce (s + 1) (Or.inr ⟨rfl, by omega⟩)]
    · simp only [windowRun, watchWindowOfflineNext, List.length_cons, List.range'_succ,
        List.map_cons, hs]
      rw [ih .putNavigator (s + 1) (Or.inl ⟨Or.inr rfl, by omega⟩)]
      simp

/-- C17: `watchNavigatorStatus(navigator)` yields first one `put`, of `NAVIGATOR_ONLINE`
if `navigator.onLine` and of `NAVIGATOR_OFFLINE` otherwise, then `fork(watchWindowOnline)`
and `fork(watchWindowOffline)`, and completes. Whatever values they are resumed with and
however long they run, `watchWindowOnline` yields `call(once, window, 'online')` and
`put(NAVIGATOR_ONLINE)` in turn and `watchWindowOffline` yields
`call(once, window, 'offline')` and `put(NAVIGATOR_OFFLINE)` in turn, never completing. -/
theorem watchNavigatorStatus_effects (vs : List Resume) :
    watchNavigatorStatus ⟨true⟩
        = [.put .navigatorOnline, .fork .watchWindowOnline, .fork .watchWindowOffline]
      ∧ watchNavigatorStatus ⟨false⟩
        = [.put .navigatorOffline, .fork .watchWindowOnline, .fork .watchWindowOffline]
      ∧ windowRun watchWindowOnlineNext watchWindowOnline vs
        = (List.range vs.length).map (fun i =>
            if i % 2 = 0 then Yield.value (.call (.once "online"))
            else Yield.value (.put .navigatorOnline))
      ∧ windowRun watchWindowOfflineNext watchWindowOffline vs
        = (List.range vs.length).map (fun i =>
            if i % 2 = 0 then Yield.value (.call (.once "offline"))
            else Yield.value (.put .navigatorOffline)) := by
  refine ⟨rfl, rfl, ?_, ?_⟩
  · rw [List.range_eq_range']
    exact windowRun_online vs watchWindowOnline 0 (Or.inl ⟨Or.inl rfl, rfl⟩)
  · rw [List.range_eq_range']
    exact windowRun_offline vs watchWindowOffline 0 (Or.inl ⟨Or.inl rfl, rfl⟩)

/-! ### The reducer: default state and handlers -/

/-- C18: for an action whose type the reducer does not handle (`PING`, `PING_CANCEL`,
`BACKOFF_COMPLETE`, `START_WATCH_NETWORK_STATUS`, a foreign type), the reducer called
with an undefined state returns the default snapshot `{hasBeenOnline: false,
hasDetectedNetworkStatus: false, isNavigatorOnline: false, isOnline: false,
isPinging: false, msUntilNextPing: 0, pingError: null}`, and called with a defined state
returns that state unchanged. -/
theorem networkReducer_unhandled (action : Action) (state : State)
    (h : action.type ∉ handledTypes) :
    networkReducer none action
        = { hasBeenOnline := false, hasDetectedNetworkStatus := false,
            isNavigatorOnline := false, isOnline := false, isPinging := false,
            msUntilNextPing := 0, pingError := .null }
      ∧ networkReducer (some state) action = state := by
  cases action <;> simp [handledTypes, Action.type] at h <;> exact ⟨rfl, rfl⟩

/-- Witness of C18: the action `PING` on a snapshot taken while a ping is pending. -/
theorem networkReducer_unhandled_witness :
    (Action.ping "http://example.com/ping").type ∉ handledTypes
      ∧ networkReducer none (.ping "http://example.com/ping")
        = { hasBeenOnline := false, hasDetectedNetworkStatus := false,
            isNavigatorOnline := false, isOnline := false, isPinging := false,
            msUntilNextPing := 0, pingError := .null }
      ∧ networkReducer (some ⟨true, true, true, false, true, 1500, .undefined⟩)
          (.ping "http://example.com/ping")
        = ⟨true, true, true, false, true, 1500, .undefined⟩ :=
  ⟨by decide,
   networkReducer_unhandled (.ping "http://example.com/ping")
     ⟨true, true, true, false, true, 1500, .undefined⟩ (by decide)⟩

/-- C19: for every snapshot `s`, `NAVIGATOR_ONLINE` sets `isNavigatorOnline = true`;
`NAVIGATOR_OFFLINE` sets `isNavigatorOnline = false`, `isOnline = false`,
`hasDetectedNetworkStatus = true`; `PING_PENDING` sets `isPinging = true`;
`PING_SUCCESS` sets `isOnline = true`, `isPinging = false`, `hasBeenOnline = true`,
`hasDetectedNetworkStatus = true`; `PING_FAILURE(err)` sets `isOnline = false`,
`isPinging = false`, `hasDetectedNetworkStatus = true`, `pingError = err`; every other
field keeps the value it has in `s`. -/
theorem reducer_navigator_ping_handlers (s : State) (err : JsError) :
    reducer s .navigatorOnline
        = { hasBeenOnline := s.hasBeenOnline,
            hasDetectedNetworkStatus := s.hasDetectedNetworkStatus,
            isNavigatorOnline := true, isOnline := s.isOnline, isPinging := s.isPinging,
            msUntilNextPing := s.msUntilNextPing, pingError := s.pingError }
      ∧ reducer s .navigatorOffline
        = { hasBeenOnline := s.hasBeenOnline, hasDetectedNetworkStatus := true,
            isNavigatorOnline := false, isOnline := false, isPinging := s.isPinging,
            msUntilNextPing := s.msUntilNextPing, pingError := s.pingError }
      ∧ reducer s .pingPending
        = { hasBeenOnline := s.hasBeenOnline,
            hasDetectedNetworkStatus := s.hasDetectedNetworkStatus,
            isNavigatorOnline := s.isNavigatorOnline, isOnline := s.isOnline,
            isPinging := true, msUntilNextPing := s.msUntilNextPing,
            pingError := s.pingError }
      ∧ reducer s .pingSuccess
        = { hasBeenOnline := true, hasDetectedNetworkStatus := true,
            isNavigatorOnline := s.isNavigatorOnline, isOnline := true, isPinging := false,
            msUntilNextPing := s.msUntilNextPing, pingError := s.pingError }
      ∧ reducer s (.pingFailure err)
        = { hasBeenOnline := s.hasBeenOnline, hasDetectedNetworkStatus := true,
            isNavigatorOnline := s.isNavigatorOnline, isOnline := false, isPinging := false,
            msUntilNextPing := s.msUntilNextPing, pingError := err } :=
  ⟨rfl, rfl, rfl, rfl, rfl⟩

/-- C20: for every snapshot `s` and payload `ms`, `BACKOFF(ms)` sets `msUntilNextPing`
to `ms` whatever it was, `COUNT_DOWN(ms)` sets it to `s.msUntilNextPing - ms`, and both
leave every other field of `s` unchanged. -/
theorem reducer_backoff_countDown_handlers (s : State) (ms : ℚ) :
    reducer s (.backoff ms)
        = { hasBeenOnline := s.hasBeenOnline,
            hasDetectedNetworkStatus := s.hasDetectedNetworkStatus,
            isNavigatorOnline := s.isNavigatorOnline, isOnline := s.isOnline,
            isPinging := s.isPinging, msUntilNextPing := ms, pingError := s.pingError }
      ∧ reducer s (.countDown ms)
        = { hasBeenOnline := s.hasBeenOnline,
            hasDetectedNetworkStatus := s.hasDetectedNetworkStatus,
            isNavigatorOnline := s.isNavigatorOnline, isOnline := s.isOnline,
            isPinging := s.isPinging, msUntilNextPing := s.msUntilNextPing - ms,
            pingError := s.pingError } :=
  ⟨rfl, rfl⟩

/-! ### `fibonacciPoll`: the race winner and the delays -/

theorem run_failureCalls_pollDelays (random : ℕ → ℚ) (pingUrl : String)
    (options : RetryPolicy) (rounds : List (JsError × PollWinner)) :
    ∀ (p c : ℚ) (d : ℕ),
      backoffPayloads
          (PollState.run random ⟨pingUrl, options, .takeOutcome, p, c, d⟩
            (failureCalls rounds)).2
        = pollDelays options random p c d rounds.length := by
  induction rounds with
  | nil => intro p c d; rfl
  | cons r rounds ih =>
    intro p c d
    obtain ⟨err, w⟩ := r
    have := ih c (min (getNextFibonacciValue options.randomizationFactor p c (random d))
      options.maxDelay) (d + 1)
    by_cases hw : w.backoffComplete.isSome = true
    · simp [failureCalls, hw, PollState.run, PollState.step, PollState.next, Action.type,
        advanceDelay, backoffPayloads, Yield.backoffPayload, backoffRace, pollDelays]
      simpa [backoffPayloads] using this
    · simp [failureCalls, hw, PollState.run, PollState.step, PollState.next, Action.type,
        advanceDelay, backoffPayloads, Yield.backoffPayload, backoffRace, pollDelays]
      simpa [backoffPayloads] using this

theorem run_start_failureCalls (random : ℕ → ℚ) (pingUrl : String) (options : RetryPolicy)
    (rounds : List (JsError × PollWinner)) :
    backoffPayloads
        (PollState.run random (fibonacciPoll pingUrl options)
          (startCalls ++ failureCalls rounds)).2
      = pollDelays options random 0 options.initialDelay 0 rounds.length := by
  have h := run_failureCalls_pollDelays random pingUrl options rounds 0 options.initialDelay 0
  simp only [startCalls, fibonacciPoll, List.cons_append, List.nil_append, PollState.run,
    PollState.step, PollState.next]
  simpa [backoffPayloads, Yield.backoffPayload] using h

/-- C21: `fibonacciPoll` advances its backoff state whichever leg won the race. Two runs
with the same policy and the same random draws that go through the same number of failed
pings, with any winners of the races (and any errors carried by the failures), put the
same `BACKOFF` payloads; these are the delays of the recurrence
`previousDelay' = currentDelay`, `currentDelay' = min(getNextFibonacciValue(
randomizationFactor, previousDelay, currentDelay), maxDelay)` started at
`previousDelay = 0`, `currentDelay = initialDelay`. -/
theorem fibonacciPoll_delays_independent_of_winner (pingUrl : String)
    (options : RetryPolicy) (random : ℕ → ℚ) (rounds1 rounds2 : List (JsError × PollWinner))
    (hlen : rounds1.length = rounds2.length) :
    backoffPayloads
        (PollState.run random (fibonacciPoll pingUrl options)
          (startCalls ++ failureCalls rounds1)).2
        = backoffPayloads
            (PollState.run random (fibonacciPoll pingUrl options)
              (startCalls ++ failureCalls rounds2)).2
      ∧ backoffPayloads
          (PollState.run random (fibonacciPoll pingUrl options)
            (startCalls ++ failureCalls rounds1)).2
        = pollDelays options random 0 options.initialDelay 0 rounds1.length := by
  rw [run_start_failureCalls, run_start_failureCalls, hlen]
  exact ⟨rfl, rfl⟩

/-- Witness of C21: the policy of `watchNetworkStatus`, draws `1/2`, `1/4`, `1/8`, ...,
three failed pings; `BACKOFF_COMPLETE` wins every race of the first run, a manual `PING`
every race of the second. The payloads are 500, 625, 1265 + 5/8. -/
theorem fibonacciPoll_delays_independent_of_winner_witness :
    ([(JsError.undefined, (⟨some .backoffComplete, none⟩ : PollWinner)),
        (.undefined, ⟨some .backoffComplete, none⟩),
        (.undefined, ⟨some .backoffComplete, none⟩)]).length
        = ([(JsError.undefined, (⟨none, some (.ping "http://example.com/ping")⟩ : PollWinner)),
            (.undefined, ⟨none, some (.ping "http://example.com/ping")⟩),
            (.undefined, ⟨none, some (.ping "http://example.com/ping")⟩)]).length
      ∧ backoffPayloads
          (PollState.run (fun i => 1 / 2 ^ (i + 1))
            (fibonacciPoll "http://example.com/ping" ⟨1 / 2, 500, 10000⟩)
            (startCalls ++ failureCalls
              [(.undefined, ⟨some .backoffComplete, none⟩),
               (.undefined, ⟨some .backoffComplete, none⟩),
               (.undefined, ⟨some .backoffComplete, none⟩)])).2
        = backoffPayloads
            (PollState.run (fun i => 1 / 2 ^ (i + 1))
              (fibonacciPoll "http://example.com/ping" ⟨1 / 2, 500, 10000⟩)
              (startCalls ++ failureCalls
                [(.undefined, ⟨none, some (.ping "http://example.com/ping")⟩),
                 (.undefined, ⟨none, some (.ping "http://example.com/ping")⟩),
                 (.undefined, ⟨none, some (.ping "http://example.com/ping")⟩)])).2 :=
  ⟨rfl,
   (fibonacciPoll_delays_independent_of_winner "http://example.com/ping" ⟨1 / 2, 500, 10000⟩
      (fun i => 1 / 2 ^ (i + 1)) _ _ rfl).1⟩

/-! ### `handlePing` on `PING_CANCEL` -/

/-- C23: for a `PING_CANCEL` action the first `next()` on `handlePing` completes the
generator without any effect, and so does every later call of `next`, whatever its
argument: no `PING_PENDING`, no `fork` of the timer, no race with `fetch`, no
`PING_SUCCESS`, no `PING_FAILURE`. -/
theorem handlePing_pingCancel_completes (pingUrl : String) (v : PingResume)
    (vs : List PingResume) :
    (handlePing .PING_CANCEL pingUrl).next v
        = some (⟨.PING_CANCEL, pingUrl, .done, none⟩, .done)
      ∧ (PingState.run (handlePing .PING_CANCEL pingUrl) ((v :: vs).map PingCall.next)).2
        = List.replicate (vs.length + 1) .done
      ∧ putActions
          (PingState.run (handlePing .PING_CANCEL pingUrl) ((v :: vs).map PingCall.next)).2
        = [] := by
  have hdone : ∀ (ws : List PingResume) (st : PingState), st.pc = .done →
      (PingState.run st (ws.map PingCall.next)).2 = List.replicate ws.length .done := by
    intro ws
    induction ws with
    | nil => intro st _; rfl
    | cons w ws ih =>
      intro st hst
      simp only [List.map_cons, PingState.run, PingState.step, PingState.next, hst,
        List.length_cons, List.replicate_succ]
      rw [ih st hst]
  have hrun : (PingState.run (handlePing .PING_CANCEL pingUrl)
      ((v :: vs).map PingCall.next)).2 = List.replicate (vs.length + 1) .done := by
    simp only [List.map_cons, handlePing, PingState.run, PingState.step, PingState.next,
      if_true, List.replicate_succ]
    rw [hdone vs _ rfl]
  refine ⟨by simp [handlePing, PingState.next], hrun, ?_⟩
  rw [hrun]
  simp [putActions, List.filterMap_replicate, Yield.putAction]

/-! ### `watchNetworkStatus`: the start-up -/

theorem WatchState.next_after_start (st st1 : WatchState) (v : Resume) (y : Yield)
    (hpc : st.pc ≠ .start) (h : st.next v = some (st1, y)) :
    st1.pc ≠ .start ∧ y.isTakeStart = false := by
  simp only [WatchState.next] at h
  split at h
  all_goals try split at h
  all_goals first
    | contradiction
    | (simp only [Option.some.injEq, Prod.mk.injEq] at h
       obtain ⟨rfl, rfl⟩ := h
       first
         | exact ⟨hpc, rfl⟩
         | exact ⟨by simp, rfl⟩)

theorem WatchState.run_after_start (vs : List Resume) :
    ∀ st : WatchState, st.pc ≠ .start →
      ∀ y ∈ (WatchState.run st vs).2, y.isTakeStart = false := by
  induction vs with
  | nil => intro st _ y hy; simp [WatchState.run] at hy
  | cons v vs ih =>
    intro st hst y hy
    cases hnext : st.next v with
    | none => simp [WatchState.run, hnext] at hy
    | some r =>
      obtain ⟨st1, y1⟩ := r
      obtain ⟨hpc1, hy1⟩ := WatchState.next_after_start st st1 v y1 hst hnext
      simp only [WatchState.run, hnext, List.mem_cons] at hy
      rcases hy with rfl | hy
      · exact hy1
      · exact ih st1 hpc1 y hy

theorem WatchState.next_forkedPoll (pingUrl : String) (st st1 : WatchState) (v : Resume)
    (y : Yield) (hpc : st.pc ≠ .start ∧ st.pc ≠ .takeStart) (hurl : st.pingUrl = some pingUrl)
    (h : st.next v = some (st1, y)) :
    (st1.pc ≠ .start ∧ st1.pc ≠ .takeStart) ∧ st1.pingUrl = some pingUrl
      ∧ ∀ x, y.forkedPoll = some x → x = (pingUrl, pollOptions) := by
  obtain ⟨pc, url, task⟩ := st
  simp only at hurl hpc
  subst hurl
  cases pc <;> simp only [WatchState.next] at h
  case start => exact absurd rfl hpc.1
  case takeStart => exact absurd rfl hpc.2
  case forkPoll =>
    split at h
    · simp only [Option.some.injEq, Prod.mk.injEq] at h
      obtain ⟨rfl, rfl⟩ := h
      simp [Yield.forkedPoll]
    · contradiction
  case takeOffline =>
    split at h
    · simp only [Option.some.injEq, Prod.mk.injEq] at h
      obtain ⟨rfl, rfl⟩ := h
      simp [Yield.forkedPoll]
    · contradiction
  all_goals
    simp only [Option.some.injEq, Prod.mk.injEq] at h
    obtain ⟨rfl, rfl⟩ := h
    simp [Yield.forkedPoll]

theorem WatchState.run_forkedPoll (pingUrl : String) (vs : List Resume) :
    ∀ st : WatchState, (st.pc ≠ .start ∧ st.pc ≠ .takeStart) → st.pingUrl = some pingUrl →
      ∀ x ∈ (WatchState.run st vs).2.filterMap Yield.forkedPoll, x = (pingUrl, pollOptions) := by
  induction vs with
  | nil => intro st _ _ x hx; simp [WatchState.run] at hx
  | cons v vs ih =>
    intro st hpc hurl x hx
    cases hnext : st.next v with
    | none => simp [WatchState.run, hnext] at hx
    | some r =>
      obtain ⟨st1, y1⟩ := r
      obtain ⟨hpc1, hurl1, hy1⟩ := WatchState.next_forkedPoll pingUrl st st1 v y1 hpc hurl hnext
      simp only [WatchState.run, hnext, List.filterMap_cons] at hx
      cases hf : y1.forkedPoll with
      | none => rw [hf] at hx; exact ih st1 hpc1 hurl1 x hx
      | some x1 =>
        rw [hf] at hx
        rcases List.mem_cons.mp hx with rfl | hx
        · exact hy1 x hf
        · exact ih st1 hpc1 hurl1 x hx

/-- C22: `watchNetworkStatus` yields `take(START_WATCH_NETWORK_STATUS)` first and,
resumed with that action, `fork(watchBackoff)`, `fork(watchPing)` and
`fork(watchNavigatorStatus, window.navigator)` in that order, then
`take(NAVIGATOR_ONLINE)`. In every run, whatever the generator is resumed with, no later
result is `take(START_WATCH_NETWORK_STATUS)`, so the command is taken once only, and
every `fork` of `fibonacciPoll` carries the URL of that command and the options
`{randomizationFactor: 0.5, initialDelay: 500, maxDelay: 10000}`. -/
theorem watchNetworkStatus_startup (pingUrl : String) (v0 v2 v3 v4 : Resume)
    (vs : List Resume) :
    (WatchState.run watchNetworkStatus
        [v0, .action (.startWatchNetworkStatus pingUrl), v2, v3, v4]).2
        = [.value (.take (.one .START_WATCH_NETWORK_STATUS)),
           .value (.fork .watchBackoff), .value (.fork .watchPing),
           .value (.fork .watchNavigatorStatus),
           .value (.take (.one .NAVIGATOR_ONLINE))]
      ∧ (∀ y ∈ (WatchState.run watchNetworkStatus (v0 :: vs)).2.tail, y.isTakeStart = false)
      ∧ (∀ x ∈ (WatchState.run watchNetworkStatus
            (v0 :: .action (.startWatchNetworkStatus pingUrl) :: vs)).2.filterMap
              Yield.forkedPoll,
          x = (pingUrl, ⟨1 / 2, 500, 10000⟩)) := by
  refine ⟨?_, ?_, ?_⟩
  · simp [watchNetworkStatus, WatchState.run, WatchState.next]
  · have h := WatchState.run_after_start vs ⟨.takeStart, none, none⟩ (by simp)
    simpa [watchNetworkStatus, WatchState.run, WatchState.next] using h
  · have h := WatchState.run_forkedPoll pingUrl vs ⟨.forkBackoff, some pingUrl, none⟩
      (by simp) rfl
    simpa [watchNetworkStatus, WatchState.run, WatchState.next, Yield.forkedPoll,
      pollOptions] using h

/-! ### The countdown seen by the reducer -/

theorem countDownPayloads_handleBackoff (ms : ℚ) (hms : 0 ≤ ms) :
    countDownPayloads (handleBackoff ms)
      = List.replicate ⌊ms / 1000⌋.toNat 1000
          ++ (if 0 < ms - 1000 * ⌊ms / 1000⌋ then [ms - 1000 * ⌊ms / 1000⌋] else []) := by
  have hq : 0 ≤ ms / 1000 := div_nonneg hms (by norm_num)
  have hfl : 0 ≤ ⌊ms / 1000⌋ := Int.floor_nonneg.mpr hq
  have hlen : (range 0 ⌊ms / 1000⌋).length = ⌊ms / 1000⌋.toNat := by
    rw [range_zero_length]
    omega
  simp only [handleBackoff, flatMap_const_eq, hlen, jsMod_of_nonneg ms 1000 hq, gt_iff_lt,
    countDownPayloads_append, countDownPayloads_ticks]
  split <;> simp [countDownPayloads]

theorem foldEvents_countDowns (ticks : List ℚ) :
    ∀ s : State,
      (foldEvents s (ticks.map Action.countDown)).msUntilNextPing
        = s.msUntilNextPing - ticks.sum := by
  induction ticks with
  | nil => intro s; simp [foldEvents]
  | cons t ticks ih =>
    intro s
    rw [List.map_cons, foldEvents_cons, ih, List.sum_cons]
    simp only [reducer]
    ring

theorem sum_take_le_of_nonneg (ticks : List ℚ) (h : ∀ t ∈ ticks, 0 ≤ t) :
    ∀ k : ℕ, (ticks.take k).sum ≤ ticks.sum := by
  induction ticks with
  | nil => intro k; simp
  | cons t ticks ih =>
    intro k
    have ht : 0 ≤ t := h t (List.mem_cons_self _ _)
    have hrest : 0 ≤ ticks.sum := List.sum_nonneg fun x hx => h x (List.mem_cons_of_mem _ hx)
    cases k with
    | zero => simp only [List.take_zero, List.sum_nil, List.sum_cons]; linarith
    | succ k =>
      simp only [List.take_succ_cons, List.sum_cons]
      linarith [ih (fun x hx => h x (List.mem_cons_of_mem _ hx)) k]

/-- C24: for every duration `ms ≥ 0` and every snapshot, after `BACKOFF(ms)` and any
number of the `COUNT_DOWN` ticks that `handleBackoff({ payload: ms })` puts, folded in
order through the reducer, `msUntilNextPing` is `≥ 0`; after the last tick, which is
when `BACKOFF_COMPLETE` is put, it is exactly 0. -/
theorem backoff_countDown_reaches_zero (ms : ℚ) (s : State) (tick : ℕ) (hms : 0 ≤ ms) :
    0 ≤ (foldEvents s (backoffEvents ms tick)).msUntilNextPing
      ∧ (foldEvents s
          (backoffEvents ms (countDownPayloads (handleBackoff ms)).length)).msUntilNextPing
        = 0 := by
  have hshape := countDownPayloads_handleBackoff ms hms
  have hq : 0 ≤ ms / 1000 := div_nonneg hms (by norm_num)
  have hfl : 0 ≤ ⌊ms / 1000⌋ := Int.floor_nonneg.mpr hq
  have hle : (⌊ms / 1000⌋ : ℚ) ≤ ms / 1000 := Int.floor_le _
  have hnonneg : ∀ t ∈ countDownPayloads (handleBackoff ms), 0 ≤ t := by
    intro t ht
    rw [hshape, List.mem_append] at ht
    rcases ht with ht | ht
    · rw [(List.mem_replicate.mp ht).2]; norm_num
    · split at ht
      · rw [List.mem_singleton.mp ht]; linarith
      · simp at ht
  have hsum : (countDownPayloads (handleBackoff ms)).sum = ms := by
    rw [hshape]
    obtain ⟨n, hn⟩ := Int.eq_ofNat_of_zero_le hfl
    rw [hn] at hle ⊢
    simp only [Int.toNat_ofNat, Int.cast_natCast] at hle ⊢
    by_cases hr : 0 < ms - 1000 * (n : ℚ)
    · simp only [hr, if_true, List.sum_append, List.sum_replicate, List.sum_cons,
        List.sum_nil, smul_eq_mul, nsmul_eq_mul]
      ring
    · have heq : ms - 1000 * (n : ℚ) = 0 := by
        apply le_antisymm (not_lt.mp hr)
        linarith
      simp only [hr, if_false, List.sum_append, List.sum_replicate, List.sum_nil,
        smul_eq_mul, nsmul_eq_mul]
      linarith
  have hfold : ∀ k : ℕ, (foldEvents s (backoffEvents ms k)).msUntilNextPing
      = ms - ((countDownPayloads (handleBackoff ms)).take k).sum := by
    intro k
    rw [backoffEvents, foldEvents_cons, foldEvents_countDowns]
    rfl
  constructor
  · rw [hfold]
    linarith [sum_take_le_of_nonneg _ hnonneg tick]
  · rw [hfold, List.take_length, hsum]
    ring

/-- Witness of C24 at `ms = 2500`, on the default snapshot, after the second tick. -/
theorem backoff_countDown_reaches_zero_witness :
    (0 : ℚ) ≤ 2500
      ∧ 0 ≤ (foldEvents DEFAULT_STATE (backoffEvents 2500 2)).msUntilNextPing
      ∧ (foldEvents DEFAULT_STATE
          (backoffEvents 2500 (countDownPayloads (handleBackoff 2500)).length)).msUntilNextPing
        = 0 :=
  ⟨by norm_num, backoff_countDown_reaches_zero 2500 DEFAULT_STATE 2 (by norm_num)⟩

/-! ### The reducer: flags that stay set -/

theorem foldEvents_hasBeenOnline (evs : List Action) :
    ∀ s : State, s.hasBeenOnline = true → (foldEvents s evs).hasBeenOnline = true := by
  induction evs with
  | nil => intro s h; exact h
  | cons a evs ih =>
    intro s h
    rw [foldEvents_cons]
    apply ih
    cases a <;> simp [reducer, h]

theorem foldEvents_hasDetectedNetworkStatus (evs : List Action) :
    ∀ s : State, s.hasDetectedNetworkStatus = true →
      (foldEvents s evs).hasDetectedNetworkStatus = true := by
  induction evs with
  | nil => intro s h; exact h
  | cons a evs ih =>
    intro s h
    rw [foldEvents_cons]
    apply ih
    cases a <;> simp [reducer, h]

theorem foldEvents_isOnline_hasBeenOnline (evs : List Action) :
    ∀ s : State, (s.isOnline = true → s.hasBeenOnline = true) →
      (foldEvents s evs).isOnline = true → (foldEvents s evs).hasBeenOnline = true := by
  induction evs with
  | nil => intro s h; exact h
  | cons a evs ih =>
    intro s h
    rw [foldEvents_cons]
    apply ih
    cases a <;> simp [reducer] <;> exact h

/-- C25: `hasBeenOnline` and `hasDetectedNetworkStatus` are monotone: for every snapshot
`s` in which the flag is true, the reducer's result on every event `a` has the flag
true, and so has the snapshot after every sequence of events; and in every snapshot
reached from the default snapshot, `isOnline = true` implies `hasBeenOnline = true`. -/
theorem reducer_flags_monotone (s : State) (a : Action) (evs : List Action) :
    (s.hasBeenOnline = true →
        (reducer s a).hasBeenOnline = true ∧ (foldEvents s evs).hasBeenOnline = true)
      ∧ (s.hasDetectedNetworkStatus = true →
          (reducer s a).hasDetectedNetworkStatus = true
            ∧ (foldEvents s evs).hasDetectedNetworkStatus = true)
      ∧ ((foldEvents DEFAULT_STATE evs).isOnline = true →
          (foldEvents DEFAULT_STATE evs).hasBeenOnline = true) :=
  ⟨fun h => ⟨foldEvents_hasBeenOnline [a] s h, foldEvents_hasBeenOnline evs s h⟩,
   fun h => ⟨foldEvents_hasDetectedNetworkStatus [a] s h,
     foldEvents_hasDetectedNetworkStatus evs s h⟩,
   foldEvents_isOnline_hasBeenOnline evs DEFAULT_STATE (by simp [DEFAULT_STATE])⟩

/-- Witness of C25: a snapshot with both flags set, the event `NAVIGATOR_OFFLINE`, and
the events `PING_SUCCESS`, `PING_PENDING` from the default snapshot. -/
theorem reducer_flags_monotone_witness :
    (⟨true, true, true, true, false, 0, .null⟩ : State).hasBeenOnline = true
      ∧ (reducer ⟨true, true, true, true, false, 0, .null⟩ .navigatorOffline).hasBeenOnline
          = true
      ∧ (⟨true, true, true, true, false, 0, .null⟩ : State).hasDetectedNetworkStatus = true
      ∧ (foldEvents ⟨true, true, true, true, false, 0, .null⟩
          [.pingSuccess, .pingPending]).hasDetectedNetworkStatus = true
      ∧ (foldEvents DEFAULT_STATE [.pingSuccess, .pingPending]).isOnline = true
      ∧ (foldEvents DEFAULT_STATE [.pingSuccess, .pingPending]).hasBeenOnline = true :=
  have h := reducer_flags_monotone ⟨true, true, true, true, false, 0, .null⟩ .navigatorOffline
    [.pingSuccess, .pingPending]
  ⟨rfl, (h.1 rfl).1, rfl, (h.2.1 rfl).2, rfl, h.2.2 rfl⟩

/-! ### The payload of the `PING_FAILURE` of `handlePing` -/

theorem PingState.step_isPingEvent (st st1 : PingState) (c : PingCall) (y : Yield)
    (h : st.step c = some (st1, y)) :
    ∀ a, y.putAction = some a → a.isPingEvent = true := by
  cases c with
  | ret =>
    simp only [PingState.step, PingState.ret, Option.some.injEq] at h
    split at h <;> simp only [Prod.mk.injEq] at h <;> obtain ⟨rfl, rfl⟩ := h <;>
      simp [Yield.putAction]
  | throw error =>
    simp only [PingState.step, PingState.throw] at h
    split at h
    · split at h
      · simp only [Option.some.injEq, Prod.mk.injEq] at h
        obtain ⟨rfl, rfl⟩ := h
        simp [Yield.putAction]
      · contradiction
    · split at h
      · simp only [Option.some.injEq, Prod.mk.injEq] at h
        obtain ⟨rfl, rfl⟩ := h
        simp [Yield.putAction]
      · contradiction
  | next v =>
    simp only [PingState.step, PingState.next] at h
    split at h
    all_goals try split at h
    all_goals try split at h
    all_goals try split at h
    all_goals first
      | contradiction
      | (simp only [Option.some.injEq, Prod.mk.injEq] at h
         obtain ⟨rfl, rfl⟩ := h
         simp [Yield.putAction, Action.isPingEvent, pingRace])

theorem PingState.run_isPingEvent (calls : List PingCall) :
    ∀ st : PingState, ∀ a ∈ putActions (PingState.run st calls).2, a.isPingEvent = true := by
  induction calls with
  | nil => intro st a ha; simp [PingState.run, putActions] at ha
  | cons c cs ih =>
    intro st a ha
    cases hstep : st.step c with
    | none => simp [PingState.run, hstep, putActions] at ha
    | some r =>
      obtain ⟨st1, y⟩ := r
      have hy := PingState.step_isPingEvent st st1 c y hstep
      simp only [PingState.run, hstep, putActions, List.filterMap_cons] at ha
      cases hp : y.putAction with
      | none => rw [hp] at ha; exact ih st1 a ha
      | some a1 =>
        rw [hp] at ha
        rcases List.mem_cons.mp ha with rfl | ha
        · exact hy a hp
        · exact ih st1 a ha

theorem foldEvents_pingEvents_pingError (evs : List Action) :
    ∀ s : State, (∀ a ∈ evs, a.isPingEvent = true) →
      (foldEvents s evs).pingError = s.pingError
        ∨ (foldEvents s evs).pingError = .undefined := by
  induction evs with
  | nil => intro s _; exact Or.inl rfl
  | cons a evs ih =>
    intro s h
    rw [foldEvents_cons]
    have ha := h a (List.mem_cons_self _ _)
    have ih1 := ih (reducer s a) fun x hx => h x (List.mem_cons_of_mem _ hx)
    cases a with
    | pingFailure payload =>
      cases payload with
      | undefined =>
        rcases ih1 with h1 | h1
        · exact Or.inr (by rw [h1]; rfl)
        · exact Or.inr h1
      | _ => simp [Action.isPingEvent] at ha
    | pingPending => exact ih1
    | pingSuccess => exact ih1
    | _ => simp [Action.isPingEvent] at ha

/-- C26: every `PING_FAILURE` that `handlePing` puts is `pingFailure()`, created without
payload: in every run, from the start or from any program point, whatever calls are
made on the generator (values, errors thrown, cancellation), every action it puts is
`PING_PENDING`, `PING_SUCCESS` or `PING_FAILURE` with payload `undefined`; the error
thrown into the generator is not read. Folding the actions of a run through the reducer
therefore leaves `pingError` as it was or sets it to `undefined`, and never stores an
error value in it. -/
theorem handlePing_failure_has_no_payload (st : PingState) (calls : List PingCall)
    (s : State) (pingUrl : String) (delayTask : Nat) (error : JsError) :
    (∀ a ∈ putActions (PingState.run st calls).2,
        a = .pingPending ∨ a = .pingSuccess ∨ a = .pingFailure .undefined)
      ∧ ((foldEvents s (putActions (PingState.run st calls).2)).pingError = s.pingError
          ∨ (foldEvents s (putActions (PingState.run st calls).2)).pingError = .undefined)
      ∧ putActions (PingState.run (handlePing .PING pingUrl)
          (uncancelledCalls delayTask (.thrown error))).2
        = [.pingPending, .pingFailure .undefined]
      ∧ (foldEvents s (putActions (PingState.run (handlePing .PING pingUrl)
          (uncancelledCalls delayTask (.thrown error))).2)).pingError = .undefined := by
  have hall := PingState.run_isPingEvent calls st
  have hthrown : putActions (PingState.run (handlePing .PING pingUrl)
      (uncancelledCalls delayTask (.thrown error))).2
        = [.pingPending, .pingFailure .undefined] := by
    simp [uncancelledCalls, RaceOutcome.call, RaceOutcome.joins, handlePing, PingState.run,
      PingState.step, PingState.next, PingState.throw, PingPc.inTryBody, putActions,
      Yield.putAction, pingRace]
  refine ⟨?_, foldEvents_pingEvents_pingError _ s hall, hthrown, ?_⟩
  · intro a ha
    have h := hall a ha
    cases a with
    | pingFailure payload =>
      cases payload <;> simp [Action.isPingEvent] at h ⊢
    | pingPending => simp
    | pingSuccess => simp
    | _ => simp [Action.isPingEvent] at h
  · rw [hthrown]
    rfl

/-! ### `getNextFibonacciValue` on doubles -/

theorem roundHalfEven_intCast (k : ℤ) : roundHalfEven (k : ℚ) = k := by
  simp [roundHalfEven]

theorem roundHalfEven_floor_le (x : ℚ) : ⌊x⌋ ≤ roundHalfEven x := by
  unfold roundHalfEven
  split_ifs <;> omega

theorem roundHalfEven_le_floor_succ (x : ℚ) : roundHalfEven x ≤ ⌊x⌋ + 1 := by
  unfold roundHalfEven
  split_ifs <;> omega

theorem roundHalfEven_mono {x y : ℚ} (h : x ≤ y) : roundHalfEven x ≤ roundHalfEven y := by
  have hfl : ⌊x⌋ ≤ ⌊y⌋ := Int.floor_mono h
  rcases hfl.lt_or_eq with hlt | heq
  · calc roundHalfEven x ≤ ⌊x⌋ + 1 := roundHalfEven_le_floor_succ x
      _ ≤ ⌊y⌋ := hlt
      _ ≤ roundHalfEven y := roundHalfEven_floor_le y
  · have hfrac : x - ⌊x⌋ ≤ y - ⌊y⌋ := by rw [heq]; linarith
    unfold roundHalfEven
    rw [heq]
    rw [heq] at hfrac
    split_ifs <;> first | omega | (exfalso; linarith)

theorem roundHalfEven_le_of_le {x : ℚ} {n : ℤ} (h : x ≤ n) : roundHalfEven x ≤ n := by
  have := roundHalfEven_mono h
  rwa [roundHalfEven_intCast] at this

theorem roundHalfEven_ge_of_ge {x : ℚ} {n : ℤ} (h : (n : ℚ) ≤ x) : n ≤ roundHalfEven x := by
  have := roundHalfEven_mono h
  rwa [roundHalfEven_intCast] at this

theorem roundHalfEven_eq_of_near (y : ℚ) (m : ℤ) (h : |y - m| < 1 / 2) :
    roundHalfEven y = m := by
  rw [abs_lt] at h
  obtain ⟨h1, h2⟩ := h
  by_cases hge : (m : ℚ) ≤ y
  · have hfl : ⌊y⌋ = m := Int.floor_eq_iff.mpr ⟨hge, by linarith⟩
    unfold roundHalfEven
    rw [hfl, if_pos (by linarith)]
  · push_neg at hge
    have hfl : ⌊y⌋ = m - 1 := Int.floor_eq_iff.mpr ⟨by push_cast; linarith, by push_cast; linarith⟩
    unfold roundHalfEven
    rw [hfl, if_neg (by push_cast; linarith), if_pos (by push_cast; linarith)]
    ring

theorem two_zpow_pos (z : ℤ) : (0 : ℚ) < 2 ^ z := zpow_pos (by norm_num) z

theorem two_zpow_le {a b : ℤ} (h : a ≤ b) : (2 : ℚ) ^ a ≤ 2 ^ b :=
  zpow_le_zpow_right₀ (by norm_num) h

theorem ulpExponent_ge (x : ℚ) : -1074 ≤ ulpExponent x := le_max_right _ _

theorem log_sub_le_ulpExponent (x : ℚ) : Int.log 2 |x| - 52 ≤ ulpExponent x := le_max_left _ _

theorem abs_lt_two_zpow_ulpExponent (x : ℚ) : |x| < 2 ^ (ulpExponent x + 53) := by
  have h := Int.lt_zpow_succ_log_self (b := 2) (by norm_num) |x|
  simp only [Nat.cast_ofNat] at h
  exact lt_of_lt_of_le h (two_zpow_le (by linarith [log_sub_le_ulpExponent x]))

theorem ulpExponent_le_of_lt {x : ℚ} {j : ℤ} (hx : x ≠ 0) (hj : -1074 ≤ j)
    (h : |x| < 2 ^ (j + 53)) : ulpExponent x ≤ j := by
  have hpos : 0 < |x| := abs_pos.mpr hx
  have hlog : Int.log 2 |x| < j + 53 := by
    have := (Int.lt_zpow_iff_log_lt (b := 2) (by norm_num) hpos).mp
      (by simpa only [Nat.cast_ofNat] using h)
    exact this
  exact max_le (by omega) hj

theorem ulpExponent_eq {x : ℚ} {e : ℤ} (he : -1074 ≤ e) (h1 : 2 ^ (e + 52) ≤ |x|)
    (h2 : |x| < 2 ^ (e + 53)) : ulpExponent x = e := by
  have hpos : 0 < |x| := lt_of_lt_of_le (two_zpow_pos _) h1
  have hlt : Int.log 2 |x| < e + 53 :=
    (Int.lt_zpow_iff_log_lt (b := 2) (by norm_num) hpos).mp
      (by simpa only [Nat.cast_ofNat] using h2)
  have hge : e + 52 ≤ Int.log 2 |x| :=
    (Int.zpow_le_iff_le_log (b := 2) (by norm_num) hpos).mp
      (by simpa only [Nat.cast_ofNat] using h1)
  unfold ulpExponent
  have : Int.log 2 |x| - 52 = e := by omega
  rw [this]
  exact max_eq_left he

theorem roundDouble_zero : roundDouble 0 = 0 := by
  simp [roundDouble, roundHalfEven]

theorem roundDouble_of_int_mul (v : ℚ) (k j : ℤ) (hv : v = k * 2 ^ j)
    (hj : ulpExponent v ≤ j) : roundDouble v = v := by
  unfold roundDouble
  set e := ulpExponent v with he
  have hpos : (0 : ℚ) < 2 ^ e := two_zpow_pos e
  obtain ⟨n, hn⟩ := Int.eq_ofNat_of_zero_le (sub_nonneg.mpr hj)
  have hdiv : v / 2 ^ e = ((k * 2 ^ n : ℤ) : ℚ) := by
    rw [div_eq_iff hpos.ne', hv]
    have : (2 : ℚ) ^ j = 2 ^ (j - e) * 2 ^ e := by
      rw [← zpow_add₀ (by norm_num : (2 : ℚ) ≠ 0)]
      congr 1
      ring
    rw [this, hn]
    push_cast
    rw [zpow_natCast]
    ring
  rw [hdiv, roundHalfEven_intCast, ← hdiv]
  field_simp

theorem roundDouble_of_lt (v : ℚ) (k j : ℤ) (hv : v = k * 2 ^ j) (hj : -1074 ≤ j)
    (hlt : |v| < 2 ^ (j + 53)) : roundDouble v = v := by
  by_cases h0 : v = 0
  · rw [h0, roundDouble_zero]
  · exact roundDouble_of_int_mul v k j hv (ulpExponent_le_of_lt h0 hj hlt)

theorem roundHalfEven_abs_le (x : ℚ) : |(roundHalfEven (x / 2 ^ ulpExponent x) : ℚ)| ≤ 2 ^ 53 := by
  have hpos : (0 : ℚ) < 2 ^ ulpExponent x := two_zpow_pos _
  have hlt : |x / 2 ^ ulpExponent x| < 2 ^ 53 := by
    rw [abs_div, abs_of_pos hpos, div_lt_iff₀ hpos]
    have h := abs_lt_two_zpow_ulpExponent x
    rw [zpow_add₀ (by norm_num : (2 : ℚ) ≠ 0)] at h
    calc |x| < 2 ^ ulpExponent x * 2 ^ (53 : ℤ) := h
      _ = 2 ^ 53 * 2 ^ ulpExponent x := by rw [mul_comm]; norm_num
  rw [abs_lt] at hlt
  have h1 : roundHalfEven (x / 2 ^ ulpExponent x) ≤ (2 ^ 53 : ℤ) :=
    roundHalfEven_le_of_le (by push_cast; linarith [hlt.2])
  have h2 : (-(2 ^ 53) : ℤ) ≤ roundHalfEven (x / 2 ^ ulpExponent x) :=
    roundHalfEven_ge_of_ge (by push_cast; linarith [hlt.1])
  rw [abs_le]
  constructor
  · have : ((-(2 ^ 53) : ℤ) : ℚ) ≤ roundHalfEven (x / 2 ^ ulpExponent x) := by exact_mod_cast h2
    simpa using this
  · have : (roundHalfEven (x / 2 ^ ulpExponent x) : ℚ) ≤ ((2 ^ 53 : ℤ) : ℚ) := by exact_mod_cast h1
    simpa using this

theorem roundDouble_idem (x : ℚ) : roundDouble (roundDouble x) = roundDouble x := by
  have hm := roundHalfEven_abs_le x
  have he := ulpExponent_ge x
  have hpos : (0 : ℚ) < 2 ^ ulpExponent x := two_zpow_pos _
  have hv : roundDouble x = roundHalfEven (x / 2 ^ ulpExponent x) * 2 ^ ulpExponent x := rfl
  rcases hm.lt_or_eq with hlt | heq
  · apply roundDouble_of_lt _ _ _ hv he
    rw [hv, abs_mul, abs_of_pos hpos, zpow_add₀ (by norm_num : (2 : ℚ) ≠ 0), mul_comm]
    have : (2 : ℚ) ^ (53 : ℤ) = 2 ^ 53 := by norm_num
    rw [this]
    exact mul_lt_mul_of_pos_left hlt hpos
  · have hk : ∃ k : ℤ, roundDouble x = k * 2 ^ (ulpExponent x + 1) := by
      rcases abs_eq (by positivity : (0 : ℚ) ≤ 2 ^ 53) |>.mp heq with h | h
      · refine ⟨2 ^ 52, ?_⟩
        rw [hv, h, zpow_add₀ (by norm_num : (2 : ℚ) ≠ 0)]
        push_cast
        ring
      · refine ⟨-(2 ^ 52), ?_⟩
        rw [hv, h, zpow_add₀ (by norm_num : (2 : ℚ) ≠ 0)]
        push_cast
        ring
    obtain ⟨k, hk⟩ := hk
    apply roundDouble_of_lt _ k _ hk (by omega)
    rw [hv, abs_mul, heq, abs_of_pos hpos]
    have : ulpExponent x + 1 + 53 = ulpExponent x + 54 := by ring
    rw [this, zpow_add₀ (by norm_num : (2 : ℚ) ≠ 0)]
    have h54 : (2 : ℚ) ^ (54 : ℤ) = 2 ^ 54 := by norm_num
    rw [h54, mul_comm]
    exact mul_lt_mul_of_pos_left (by norm_num) hpos

theorem roundDouble_two_mul (v : ℚ) (hv : roundDouble v = v) : roundDouble (2 * v) = 2 * v := by
  have he := ulpExponent_ge v
  have hlt := abs_lt_two_zpow_ulpExponent v
  have hrep : 2 * v = roundHalfEven (v / 2 ^ ulpExponent v) * 2 ^ (ulpExponent v + 1) := by
    have h : v = roundHalfEven (v / 2 ^ ulpExponent v) * 2 ^ ulpExponent v := hv.symm
    rw [zpow_add₀ (by norm_num : (2 : ℚ) ≠ 0)]
    calc 2 * v = 2 * (roundHalfEven (v / 2 ^ ulpExponent v) * 2 ^ ulpExponent v) := by rw [← h]
      _ = _ := by ring
  apply roundDouble_of_lt _ _ _ hrep (by omega)
  have : ulpExponent v + 1 + 53 = (ulpExponent v + 53) + 1 := by ring
  rw [this, zpow_add₀ (by norm_num : (2 : ℚ) ≠ 0), abs_mul]
  have h2 : |(2 : ℚ)| = 2 := abs_of_pos (by norm_num)
  rw [h2, zpow_one, mul_comm]
  exact mul_lt_mul_of_pos_right hlt (by norm_num)

theorem roundDouble_nonneg {x : ℚ} (hx : 0 ≤ x) : 0 ≤ roundDouble x := by
  unfold roundDouble
  have hpos : (0 : ℚ) < 2 ^ ulpExponent x := two_zpow_pos _
  have h : (0 : ℤ) ≤ roundHalfEven (x / 2 ^ ulpExponent x) :=
    roundHalfEven_ge_of_ge (by push_cast; exact div_nonneg hx hpos.le)
  have : (0 : ℚ) ≤ roundHalfEven (x / 2 ^ ulpExponent x) := by exact_mod_cast h
  exact mul_nonneg this hpos.le

theorem ulpExponent_mono {x y : ℚ} (hx : 0 < x) (h : x ≤ y) : ulpExponent x ≤ ulpExponent y := by
  unfold ulpExponent
  have hy : 0 < y := lt_of_lt_of_le hx h
  rw [abs_of_pos hx, abs_of_pos hy]
  have := Int.log_mono_right (b := 2) hx h
  exact max_le_max (by omega) le_rfl

theorem roundDouble_mono {x y : ℚ} (hx : 0 ≤ x) (h : x ≤ y) : roundDouble x ≤ roundDouble y := by
  rcases hx.lt_or_eq with hx0 | hx0
  · have hy0 : 0 < y := lt_of_lt_of_le hx0 h
    have he := ulpExponent_mono hx0 h
    have hpx : (0 : ℚ) < 2 ^ ulpExponent x := two_zpow_pos _
    have hpy : (0 : ℚ) < 2 ^ ulpExponent y := two_zpow_pos _
    rcases he.lt_or_eq with hlt | heq
    · -- different binades
      have hxle : roundDouble x ≤ 2 ^ (ulpExponent x + 53) := by
        have hm := (abs_le.mp (roundHalfEven_abs_le x)).2
        rw [zpow_add₀ (by norm_num : (2 : ℚ) ≠ 0)]
        have h53 : (2 : ℚ) ^ (53 : ℤ) = 2 ^ 53 := by norm_num
        rw [h53, mul_comm]
        exact mul_le_mul_of_nonneg_right hm hpx.le
      have hey : ulpExponent y = Int.log 2 |y| - 52 := by
        have h1 := ulpExponent_ge x
        unfold ulpExponent at hlt ⊢
        rcases max_cases (Int.log 2 |y| - 52) (-1074) with ⟨h2, _⟩ | ⟨h2, _⟩
        · exact h2
        · rw [h2] at hlt
          have := ulpExponent_ge x
          unfold ulpExponent at this
          omega
      have hyge : (2 : ℚ) ^ (ulpExponent y + 52) ≤ roundDouble y := by
        have hlog : (2 : ℚ) ^ (ulpExponent y + 52) ≤ y := by
          have := Int.zpow_log_le_self (b := 2) (by norm_num) (abs_pos.mpr hy0.ne')
          simp only [Nat.cast_ofNat] at this
          rw [abs_of_pos hy0] at this hey
          have hexp : ulpExponent y + 52 = Int.log 2 y := by omega
          rw [hexp]
          exact this
        have hq : ((2 ^ 52 : ℤ) : ℚ) ≤ y / 2 ^ ulpExponent y := by
          rw [le_div_iff₀ hpy]
          rw [zpow_add₀ (by norm_num : (2 : ℚ) ≠ 0)] at hlog
          have h52 : (2 : ℚ) ^ (52 : ℤ) = 2 ^ 52 := by norm_num
          rw [h52, mul_comm] at hlog
          push_cast
          exact hlog
        have hr : (2 ^ 52 : ℤ) ≤ roundHalfEven (y / 2 ^ ulpExponent y) := roundHalfEven_ge_of_ge hq
        have hr' : ((2 : ℚ) ^ 52) ≤ roundHalfEven (y / 2 ^ ulpExponent y) := by exact_mod_cast hr
        unfold roundDouble
        rw [zpow_add₀ (by norm_num : (2 : ℚ) ≠ 0)]
        have h52 : (2 : ℚ) ^ (52 : ℤ) = 2 ^ 52 := by norm_num
        rw [h52, mul_comm]
        exact mul_le_mul_of_nonneg_right hr' hpy.le
      calc roundDouble x ≤ 2 ^ (ulpExponent x + 53) := hxle
        _ ≤ 2 ^ (ulpExponent y + 52) := two_zpow_le (by omega)
        _ ≤ roundDouble y := hyge
    · unfold roundDouble
      rw [heq]
      have hdiv : x / 2 ^ ulpExponent y ≤ y / 2 ^ ulpExponent y :=
        div_le_div_of_nonneg_right h hpy.le
      have hr := roundHalfEven_mono hdiv
      have hr' : (roundHalfEven (x / 2 ^ ulpExponent y) : ℚ)
          ≤ roundHalfEven (y / 2 ^ ulpExponent y) := by exact_mod_cast hr
      exact mul_le_mul_of_nonneg_right hr' hpy.le
  · rw [← hx0, roundDouble_zero]
    exact roundDouble_nonneg (hx0 ▸ h)

theorem roundDouble_eq {x : ℚ} {e : ℤ} (m : ℤ) (he : -1074 ≤ e) (h1 : 2 ^ (e + 52) ≤ |x|)
    (h2 : |x| < 2 ^ (e + 53)) (hm : |x - m * 2 ^ e| * 2 < 2 ^ e) :
    roundDouble x = m * 2 ^ e := by
  unfold roundDouble
  rw [ulpExponent_eq he h1 h2]
  have hpos : (0 : ℚ) < 2 ^ e := two_zpow_pos _
  rw [roundHalfEven_eq_of_near _ m]
  have : x / 2 ^ e - m = (x - m * 2 ^ e) / 2 ^ e := by
    field_simp
    ring
  rw [this, abs_div, abs_of_pos hpos, div_lt_iff₀ hpos]
  linarith

theorem roundDouble_eq_pos {x : ℚ} (e m : ℤ) (he : -1074 ≤ e) (h1 : 2 ^ (e + 52) ≤ x)
    (h2 : x < 2 ^ (e + 53)) (hm1 : (x - m * 2 ^ e) * 2 < 2 ^ e)
    (hm2 : (m * 2 ^ e - x) * 2 < 2 ^ e) : roundDouble x = m * 2 ^ e := by
  have hx : 0 < x := lt_of_lt_of_le (two_zpow_pos _) h1
  apply roundDouble_eq m he
  · rwa [abs_of_pos hx]
  · rwa [abs_of_pos hx]
  · rcases abs_cases (x - m * 2 ^ e) with ⟨h, _⟩ | ⟨h, _⟩ <;> rw [h] <;> linarith

theorem roundDouble_of_lt_pos (v : ℚ) (k j : ℤ) (hv : v = k * 2 ^ j) (hj : -1074 ≤ j)
    (h0 : 0 ≤ v) (hlt : v < 2 ^ (j + 53)) : roundDouble v = v :=
  roundDouble_of_lt v k j hv hj (by rwa [abs_of_nonneg h0])

theorem roundHalfEven_tie_even (m : ℤ) (hm : m % 2 = 0) :
    roundHalfEven ((m : ℚ) - 1 / 2) = m := by
  have hfl : ⌊(m : ℚ) - 1 / 2⌋ = m - 1 := by
    rw [Int.floor_eq_iff]
    push_cast
    constructor <;> linarith
  unfold roundHalfEven
  rw [hfl]
  push_cast
  split_ifs with h1 h2 h3
  · exfalso
    linarith
  · exfalso
    linarith
  · omega
  · omega

theorem roundDouble_tie_pos {x : ℚ} (e m : ℤ) (he : -1074 ≤ e) (h1 : 2 ^ (e + 52) ≤ x)
    (h2 : x < 2 ^ (e + 53)) (hm : m % 2 = 0) (hx : x = ((m : ℚ) - 1 / 2) * 2 ^ e) :
    roundDouble x = m * 2 ^ e := by
  have hpos : 0 < x := lt_of_lt_of_le (two_zpow_pos _) h1
  have hexp : ulpExponent x = e :=
    ulpExponent_eq he (by rwa [abs_of_pos hpos]) (by rwa [abs_of_pos hpos])
  have hq : x / 2 ^ e = (m : ℚ) - 1 / 2 := by
    rw [hx]
    exact mul_div_cancel_right₀ _ (two_zpow_pos e).ne.symm
  unfold roundDouble
  rw [hexp, hq, roundHalfEven_tie_even m hm]

theorem getNextFibonacciValueDouble_zero_draw (f a b : ℚ) :
    getNextFibonacciValueDouble f a b 0 = roundDouble (a + b) := by
  simp only [getNextFibonacciValueDouble, mul_zero, roundDouble_zero, add_zero,
    roundDouble_idem]

theorem getNextFibonacciValueDouble_mono (f a b u v : ℚ) (hf : 0 ≤ f) (hab : 0 ≤ a + b)
    (hu : 0 ≤ u) (huv : u ≤ v) :
    getNextFibonacciValueDouble f a b u ≤ getNextFibonacciValueDouble f a b v := by
  simp only [getNextFibonacciValueDouble]
  have hn : 0 ≤ roundDouble (a + b) := roundDouble_nonneg hab
  have ht : 0 ≤ roundDouble (roundDouble (a + b) * f) := roundDouble_nonneg (mul_nonneg hn hf)
  have h1 : roundDouble (roundDouble (roundDouble (a + b) * f) * u)
      ≤ roundDouble (roundDouble (roundDouble (a + b) * f) * v) :=
    roundDouble_mono (mul_nonneg ht hu) (mul_le_mul_of_nonneg_left huv ht)
  have h0 : 0 ≤ roundDouble (roundDouble (roundDouble (a + b) * f) * u) :=
    roundDouble_nonneg (mul_nonneg ht hu)
  exact roundDouble_mono (add_nonneg hn h0) (by linarith)

/-- C4, counterexample: at `f = 1`, `a = 0`, `b = 1450` and the draw
`u = 255331369402803 / 2 ^ 53` (the double `0.02834747652200631`),
`getNextFibonacciValue` returns `1639486011353577 / 2 ^ 40` (`1491.1038409569092`),
whereas `(a + b) * (1 + f * u)` evaluates to `6557944045414309 / 2 ^ 42`
(`1491.1038409569094`) on doubles and to a third value in exact arithmetic. -/
theorem getNextFibonacciValueDouble_formula_differs :
    roundDouble (255331369402803 / 2 ^ 53) = 255331369402803 / 2 ^ 53
      ∧ getNextFibonacciValueDouble 1 0 1450 (255331369402803 / 2 ^ 53)
        = 1639486011353577 / 2 ^ 40
      ∧ multipliedSumDouble 1 0 1450 (255331369402803 / 2 ^ 53) = 6557944045414309 / 2 ^ 42
      ∧ ¬ (getNextFibonacciValueDouble 1 0 1450 (255331369402803 / 2 ^ 53)
          = multipliedSumDouble 1 0 1450 (255331369402803 / 2 ^ 53))
      ∧ ¬ (getNextFibonacciValueDouble 1 0 1450 (255331369402803 / 2 ^ 53)
          = (0 + 1450) * (1 + 1 * (255331369402803 / 2 ^ 53))) := by
  have hu : roundDouble (255331369402803 / 2 ^ 53) = 255331369402803 / 2 ^ 53 :=
    roundDouble_of_lt_pos _ 255331369402803 (-53) (by norm_num) (by norm_num) (by norm_num)
      (by norm_num)
  have h1450 : roundDouble 1450 = 1450 :=
    roundDouble_of_lt_pos _ 1450 0 (by norm_num) (by norm_num) (by norm_num) (by norm_num)
  have ht2 : roundDouble ((1450 : ℚ) * (255331369402803 / 2 ^ 53))
      = (5784851338032255 : ℤ) * 2 ^ (-47 : ℤ) :=
    roundDouble_eq_pos (-47) 5784851338032255 (by norm_num) (by norm_num)
      (by norm_num) (by norm_num) (by norm_num)
  have ht3 : roundDouble ((1450 : ℚ) + (5784851338032255 : ℤ) * 2 ^ (-47 : ℤ))
      = (6557944045414308 : ℤ) * 2 ^ (-42 : ℤ) :=
    roundDouble_eq_pos (-42) 6557944045414308 (by norm_num) (by norm_num)
      (by norm_num) (by norm_num) (by norm_num)
  have hs1 : roundDouble ((1 : ℚ) + 255331369402803 / 2 ^ 53)
      = (4631265312071898 : ℤ) * 2 ^ (-52 : ℤ) :=
    roundDouble_tie_pos (-52) 4631265312071898 (by norm_num) (by norm_num)
      (by norm_num) (by decide) (by norm_num)
  have hs2 : roundDouble ((1450 : ℚ) * ((4631265312071898 : ℤ) * 2 ^ (-52 : ℤ)))
      = (6557944045414309 : ℤ) * 2 ^ (-42 : ℤ) :=
    roundDouble_eq_pos (-42) 6557944045414309 (by norm_num) (by norm_num)
      (by norm_num) (by norm_num) (by norm_num)
  have hcode : getNextFibonacciValueDouble 1 0 1450 (255331369402803 / 2 ^ 53)
      = 1639486011353577 / 2 ^ 40 := by
    simp only [getNextFibonacciValueDouble, zero_add, mul_one, h1450, ht2, ht3]
    norm_num
  have hformula : multipliedSumDouble 1 0 1450 (255331369402803 / 2 ^ 53)
      = 6557944045414309 / 2 ^ 42 := by
    simp only [multipliedSumDouble, zero_add, one_mul, h1450, hu, hs1, hs2]
    norm_num
  refine ⟨hu, hcode, hformula, ?_, ?_⟩
  · rw [hcode, hformula]
    norm_num
  · rw [hcode]
    norm_num

/-- C4, amended: on doubles `a`, `b` whose sum stays finite (below `2 ^ 1022` in
magnitude), `getNextFibonacciValue(f, a, b)` with `f = 0` is exactly the sum `a + b`
whatever the draw, and with `f = 1` a draw of 0 gives `a + b` and a draw of 1 gives
`2 * (a + b)`, the sum and the double being those JavaScript computes. -/
theorem getNextFibonacciValueDouble_closed_cases (a b u : ℚ) (_hfinite : |a + b| < 2 ^ 1022) :
    getNextFibonacciValueDouble 0 a b u = roundDouble (a + b)
      ∧ getNextFibonacciValueDouble 1 a b 0 = roundDouble (a + b)
      ∧ getNextFibonacciValueDouble 1 a b 1 = roundDouble (2 * roundDouble (a + b))
      ∧ getNextFibonacciValueDouble 1 a b 1 = 2 * roundDouble (a + b) := by
  have hid := roundDouble_idem (a + b)
  have h2 := roundDouble_two_mul _ hid
  refine ⟨?_, getNextFibonacciValueDouble_zero_draw 1 a b, ?_, ?_⟩
  · simp only [getNextFibonacciValueDouble, mul_zero, zero_mul, roundDouble_zero, add_zero, hid]
  · simp only [getNextFibonacciValueDouble, mul_one, hid]
    rw [← two_mul]
  · simp only [getNextFibonacciValueDouble, mul_one, hid]
    rw [← two_mul, h2]

/-- Witness of the amended C4 at `a = 2`, `b = 3`, `u = 1/4`. -/
theorem getNextFibonacciValueDouble_closed_cases_witness :
    |(2 : ℚ) + 3| < 2 ^ 1022
      ∧ getNextFibonacciValueDouble 0 2 3 (1 / 4) = roundDouble (2 + 3)
      ∧ getNextFibonacciValueDouble 1 2 3 0 = roundDouble (2 + 3)
      ∧ getNextFibonacciValueDouble 1 2 3 1 = roundDouble (2 * roundDouble (2 + 3))
      ∧ getNextFibonacciValueDouble 1 2 3 1 = 2 * roundDouble (2 + 3) :=
  have h : |(2 : ℚ) + 3| < 2 ^ 1022 := by
    rw [abs_of_pos (by norm_num)]
    norm_num
  ⟨h, getNextFibonacciValueDouble_closed_cases 2 3 (1 / 4) h⟩

/-- C5, counterexample: at `f = 0.5`, `a = b = 500` and the draw `u = 1 - 2 ^ (-53)`, a
double below 1, `getNextFibonacciValue` returns exactly `1500`, which is
`(a + b) * (1 + f)`: the result is not strictly below that bound. -/
theorem getNextFibonacciValueDouble_upper_bound_reached :
    roundDouble (1 - 1 / 2 ^ 53) = 1 - 1 / 2 ^ 53
      ∧ (1 - 1 / 2 ^ 53 : ℚ) < 1
      ∧ getNextFibonacciValueDouble (1 / 2) 500 500 (1 - 1 / 2 ^ 53) = 1500
      ∧ ¬ (getNextFibonacciValueDouble (1 / 2) 500 500 (1 - 1 / 2 ^ 53)
          < (500 + 500) * (1 + 1 / 2)) := by
  have hu : roundDouble (1 - 1 / 2 ^ 53) = 1 - 1 / 2 ^ 53 :=
    roundDouble_of_lt_pos _ (2 ^ 53 - 1) (-53) (by norm_num) (by norm_num) (by norm_num)
      (by norm_num)
  have h1000 : roundDouble 1000 = 1000 :=
    roundDouble_of_lt_pos _ 1000 0 (by norm_num) (by norm_num) (by norm_num) (by norm_num)
  have h500 : roundDouble 500 = 500 :=
    roundDouble_of_lt_pos _ 500 0 (by norm_num) (by norm_num) (by norm_num) (by norm_num)
  have ht2 : roundDouble ((500 : ℚ) * (1 - 1 / 2 ^ 53))
      = (8796093022207999 : ℤ) * 2 ^ (-44 : ℤ) :=
    roundDouble_eq_pos (-44) 8796093022207999 (by norm_num) (by norm_num)
      (by norm_num) (by norm_num) (by norm_num)
  have ht3 : roundDouble ((1000 : ℚ) + (8796093022207999 : ℤ) * 2 ^ (-44 : ℤ))
      = (6597069766656000 : ℤ) * 2 ^ (-42 : ℤ) :=
    roundDouble_eq_pos (-42) 6597069766656000 (by norm_num) (by norm_num)
      (by norm_num) (by norm_num) (by norm_num)
  have hcode : getNextFibonacciValueDouble (1 / 2) 500 500 (1 - 1 / 2 ^ 53) = 1500 := by
    have e1 : (500 : ℚ) + 500 = 1000 := by norm_num
    have e2 : (1000 : ℚ) * (1 / 2) = 500 := by norm_num
    simp only [getNextFibonacciValueDouble, e1, h1000, e2, h500, ht2, ht3]
    norm_num
  refine ⟨hu, by norm_num, hcode, ?_⟩
  rw [hcode]
  norm_num

/-- C5, amended: for a factor `f` in `(0, 1]`, a draw `u` in `[0, 1)`, previous `a ≥ 0`
and current `b > 0` with `a + b` below `2 ^ 1022`, `getNextFibonacciValue(f, a, b)`,
computed on doubles, lies in the closed interval between its value for a draw of 0, which
is the sum `a + b`, and its value for a draw of 1, which is `next + next * f` and is at
most `2 * (a + b)`: it is never below the raw sum and never above that upper end. -/
theorem getNextFibonacciValueDouble_range (f a b u : ℚ) (hf : 0 < f) (hf1 : f ≤ 1)
    (hu : 0 ≤ u) (hu1 : u < 1) (ha : 0 ≤ a) (hb : 0 < b) (_hfinite : a + b < 2 ^ 1022) :
    roundDouble (a + b) ≤ getNextFibonacciValueDouble f a b u
      ∧ getNextFibonacciValueDouble f a b u ≤ getNextFibonacciValueDouble f a b 1
      ∧ getNextFibonacciValueDouble f a b 0 = roundDouble (a + b)
      ∧ getNextFibonacciValueDouble f a b 1
        = roundDouble (roundDouble (a + b) + roundDouble (roundDouble (a + b) * f))
      ∧ getNextFibonacciValueDouble f a b 1 ≤ 2 * roundDouble (a + b) := by
  have hab : 0 ≤ a + b := by linarith
  have hn : 0 ≤ roundDouble (a + b) := roundDouble_nonneg hab
  have hid := roundDouble_idem (a + b)
  have h1 : getNextFibonacciValueDouble f a b 1
      = roundDouble (roundDouble (a + b) + roundDouble (roundDouble (a + b) * f)) := by
    simp only [getNextFibonacciValueDouble, mul_one, roundDouble_idem]
  refine ⟨?_, getNextFibonacciValueDouble_mono f a b u 1 hf.le hab hu hu1.le,
    getNextFibonacciValueDouble_zero_draw f a b, h1, ?_⟩
  · rw [← getNextFibonacciValueDouble_zero_draw f a b]
    exact getNextFibonacciValueDouble_mono f a b 0 u hf.le hab le_rfl hu
  · rw [h1, ← roundDouble_two_mul _ hid]
    have ht : roundDouble (roundDouble (a + b) * f) ≤ roundDouble (a + b) := by
      have := roundDouble_mono (mul_nonneg hn hf.le)
        (mul_le_of_le_one_right hn hf1)
      rwa [hid] at this
    exact roundDouble_mono
      (add_nonneg hn (roundDouble_nonneg (mul_nonneg hn hf.le))) (by linarith)

/-- Witness of the amended C5 at `f = 1/2`, `a = 2`, `b = 3`, `u = 1/4`. -/
theorem getNextFibonacciValueDouble_range_witness :
    (0 : ℚ) < 1 / 2 ∧ (1 / 2 : ℚ) ≤ 1 ∧ (0 : ℚ) ≤ 1 / 4 ∧ (1 / 4 : ℚ) < 1 ∧ (0 : ℚ) ≤ 2
      ∧ (0 : ℚ) < 3 ∧ (2 + 3 : ℚ) < 2 ^ 1022
      ∧ roundDouble (2 + 3) ≤ getNextFibonacciValueDouble (1 / 2) 2 3 (1 / 4)
      ∧ getNextFibonacciValueDouble (1 / 2) 2 3 (1 / 4)
        ≤ getNextFibonacciValueDouble (1 / 2) 2 3 1
      ∧ getNextFibonacciValueDouble (1 / 2) 2 3 0 = roundDouble (2 + 3)
      ∧ getNextFibonacciValueDouble (1 / 2) 2 3 1
        = roundDouble (roundDouble (2 + 3) + roundDouble (roundDouble (2 + 3) * (1 / 2)))
      ∧ getNextFibonacciValueDouble (1 / 2) 2 3 1 ≤ 2 * roundDouble (2 + 3) :=
  ⟨by norm_num, by norm_num, by norm_num, by norm_num, by norm_num, by norm_num, by norm_num,
   getNextFibonacciValueDouble_range (1 / 2) 2 3 (1 / 4) (by norm_num) (by norm_num)
     (by norm_num) (by norm_num) (by norm_num) (by norm_num) (by norm_num)⟩

end NetworkStatus
